import Mathlib

/-!
Verification development for the ubichain address/path engine.

The TypeScript sources are embedded shallowly: byte strings become
`List Nat` (each element a byte value), JavaScript strings become
`List Char`, fallible operations return `Option`/`Except`, and the
external cryptographic hash primitives (SHA-256, RIPEMD-160,
Keccak-256), which the spec treats as out-of-scope collaborators,
are passed in as explicit function arguments of type
`List Nat → List Nat`.
-/

namespace Ubichain

/-! ### Positional digit machinery

`ofDigits b ds` reads a most-significant-first digit list as a number;
`digitsBase b n` produces the canonical (no leading zero) digit list.
These model the number/byte-string conversions inside the Base58 codec
and the decimal formatting/parsing of BIP44 path segments. -/

def ofDigits (b : Nat) (ds : List Nat) : Nat :=
  ds.foldl (fun acc d => acc * b + d) 0

/-- Fuel-driven digit extraction (most significant digit first). -/
def digitsAux (b : Nat) : Nat → Nat → List Nat
  | 0, _ => []
  | f + 1, n => if n = 0 then [] else digitsAux b f (n / b) ++ [n % b]

def digitsBase (b n : Nat) : List Nat := digitsAux b n n

/-! ### JavaScript string and number helpers

JS strings are `List Char`; a JS number that may be `NaN` is an
`Option Int` (`none` = `NaN`), matching `Number.parseInt` semantics. -/

def apostropheChar : Char := Char.ofNat 39

def digitChar (d : Nat) : Char := Char.ofNat (48 + d)

def isDigitChar (c : Char) : Bool := 48 ≤ c.toNat && c.toNat ≤ 57

def charDigitVal (c : Char) : Nat := c.toNat - 48

/-- Decimal rendering of a non-negative integer, as JS template interpolation does. -/
def decString (n : Nat) : List Char :=
  if n = 0 then [digitChar 0] else (digitsBase 10 n).map digitChar

/-- Longest decimal-digit prefix, `none` when there is no digit (`NaN`). -/
def parseNatPrefix (s : List Char) : Option Nat :=
  let ds := s.takeWhile isDigitChar
  if ds.isEmpty then none else some (ofDigits 10 (ds.map charDigitVal))

/-- `Number.parseInt(s, 10)`: optional sign, longest digit prefix, `NaN` otherwise. -/
def parseIntJS (s : List Char) : Option Int :=
  match s.dropWhile (fun c => c = ' ') with
  | [] => none
  | c :: rest =>
    if c = '-' then (parseNatPrefix rest).map (fun n => -(n : Int))
    else if c = '+' then (parseNatPrefix rest).map (fun n => (n : Int))
    else (parseNatPrefix (c :: rest)).map (fun n => (n : Int))

/-- `String.prototype.split` with a single-character separator.
The recursive call never returns `[]`, so `headD`/`tail` just extend the
first piece. -/
def jsSplit (sep : Char) : List Char → List (List Char)
  | [] => [[]]
  | c :: rest =>
    if c = sep then [] :: jsSplit sep rest
    else (c :: (jsSplit sep rest).headD []) :: (jsSplit sep rest).tail

/-- JS `x !== v` for a possibly-NaN number: `NaN !== v` is true. -/
def jStrictNe (x : Option Int) (v : Int) : Bool :=
  match x with
  | none => true
  | some a => a != v

/-- JS `x >= v` for a possibly-NaN number: false on `NaN`. -/
def jGe (x : Option Int) (v : Int) : Bool :=
  match x with
  | none => false
  | some a => decide (v ≤ a)

/-- JS `x < v` for a possibly-NaN number: false on `NaN`. -/
def jLt (x : Option Int) (v : Int) : Bool :=
  match x with
  | none => false
  | some a => decide (a < v)

def jAdd (x : Option Int) (k : Int) : Option Int := x.map (· + k)

def jSub (x : Option Int) (k : Int) : Option Int := x.map (· - k)

/-! ### BIP44 path engine (`src/utils/bip44.ts`, `src/utils/slip10.ts`)

`HARDENED_OFFSET` and `formatIndex` live in the repository's
`bip32.ts`/`slip10.ts` (identical definitions; the `slip10.ts` copy is
in the sources and `bip32.ts`'s behaviour is fixed by its unit tests). -/

def HARDENED_OFFSET : Nat := 0x80000000

def isHardenedIndex (index : Nat) : Bool := decide (HARDENED_OFFSET ≤ index)

def formatIndex (index : Nat) : List Char :=
  if isHardenedIndex index then decString (index - HARDENED_OFFSET) ++ [apostropheChar]
  else decString index

def BIP44_PURPOSE : Nat := HARDENED_OFFSET + 44

/-- `getBIP44Path`: template string
`m/${purposeStr}/${coinTypeStr}/${accountStr}/${change}/${addressIndex}`. -/
def getBIP44Path (coinType : Nat) (account : Nat) (change : Nat) (addressIndex : Nat) :
    List Char :=
  ['m', '/'] ++ formatIndex BIP44_PURPOSE ++ ['/'] ++
    formatIndex (HARDENED_OFFSET + coinType) ++ ['/'] ++
    formatIndex (HARDENED_OFFSET + account) ++ ['/'] ++
    decString change ++ ['/'] ++ decString addressIndex

/-- `parseSegment`: hardened segments (trailing apostrophe) get
`HARDENED_OFFSET` added after `parseInt`; `NaN` propagates. -/
def parseSegment (seg : List Char) : Option Int :=
  if seg.getLast? = some apostropheChar then
    jAdd (parseIntJS seg.dropLast) (HARDENED_OFFSET : Nat)
  else parseIntJS seg

structure BIP44PathParts where
  purpose : Option Int
  coinType : Option Int
  account : Option Int
  change : Option Int
  addressIndex : Option Int
deriving DecidableEq

/-- The segment-level body of `parseBIP44Path` (after the `m/` prefix
check and the split on `/`), with JS `NaN` comparison semantics. -/
def parseBIP44Segments (segments : List (List Char)) : Option BIP44PathParts :=
  match segments with
  | [s0, s1, s2, s3, s4] =>
    let purpose := parseSegment s0
    let coinType := parseSegment s1
    let account := parseSegment s2
    let change := parseSegment s3
    let addressIndex := parseSegment s4
    if jStrictNe purpose (BIP44_PURPOSE : Nat) then none
    else if jLt purpose (HARDENED_OFFSET : Nat) || jLt coinType (HARDENED_OFFSET : Nat) ||
        jLt account (HARDENED_OFFSET : Nat) then none
    else if (jStrictNe change 0 && jStrictNe change 1) || jGe change (HARDENED_OFFSET : Nat) then
      none
    else if jGe addressIndex (HARDENED_OFFSET : Nat) then none
    else some ⟨jSub purpose (HARDENED_OFFSET : Nat), jSub coinType (HARDENED_OFFSET : Nat),
      jSub account (HARDENED_OFFSET : Nat), change, addressIndex⟩
  | _ => none

/-- `parseBIP44Path`: `m/` prefix check, split, five-segment validation. -/
def parseBIP44Path (path : List Char) : Option BIP44PathParts :=
  if path.take 2 = ['m', '/'] then parseBIP44Segments (jsSplit '/' (path.drop 2))
  else none

/-! ### Base58 / Base58Check codec (`src/utils/encoding.ts` over `@scure/base`)

`base58check(sha256).encode(data)` base58-encodes
`data ++ sha256(sha256 data).take 4`; decode splits the checksum back off and
compares. The SHA-256 collaborator is a function argument. -/

def b58Alphabet : List Char :=
  ['1', '2', '3', '4', '5', '6', '7', '8', '9', 'A', 'B', 'C', 'D', 'E', 'F', 'G',
   'H', 'J', 'K', 'L', 'M', 'N', 'P', 'Q', 'R', 'S', 'T', 'U', 'V', 'W', 'X', 'Y',
   'Z', 'a', 'b', 'c', 'd', 'e', 'f', 'g', 'h', 'i', 'j', 'k', 'm', 'n', 'o', 'p',
   'q', 'r', 's', 't', 'u', 'v', 'w', 'x', 'y', 'z']

def b58Char (d : Nat) : Char := b58Alphabet.getD d ' '

def b58CharVal (c : Char) : Option Nat := b58Alphabet.findIdx? (fun x => x = c)

/-- Map every character to its Base58 value; fail on a foreign character. -/
def b58Vals : List Char → Option (List Nat)
  | [] => some []
  | c :: cs =>
    match b58CharVal c, b58Vals cs with
    | some v, some vs => some (v :: vs)
    | _, _ => none

/-- Base58: leading `0x00` bytes become `'1'` characters, the rest is the
big-endian base-58 numeral of the byte string read as a number. -/
def base58Encode (bs : List Nat) : List Char :=
  List.replicate (bs.takeWhile (fun b => b = 0)).length '1' ++
    (digitsBase 58 (ofDigits 256 bs)).map b58Char

def base58Decode (s : List Char) : Option (List Nat) :=
  match b58Vals (s.dropWhile (fun c => c = '1')) with
  | none => none
  | some vals =>
    some (List.replicate (s.takeWhile (fun c => c = '1')).length 0 ++
      digitsBase 256 (ofDigits 58 vals))

def encodeBase58Check (sha256 : List Nat → List Nat) (data : List Nat) : List Char :=
  base58Encode (data ++ (sha256 (sha256 data)).take 4)

def decodeBase58Check (sha256 : List Nat → List Nat) (address : List Char) :
    Option (List Nat) :=
  match base58Decode address with
  | none => none
  | some bytes =>
    let payload := bytes.take (bytes.length - 4)
    let checksum := bytes.drop (bytes.length - 4)
    if checksum = (sha256 (sha256 payload)).take 4 then some payload else none

def jsStartsWith (s p : List Char) : Bool := decide (p <+: s)

/-- `validateBase58Check(address, bytesVersion, expectedPrefix?, expectedLength)`. -/
def validateBase58Check (sha256 : List Nat → List Nat) (address : List Char)
    (bytesVersion : Nat) (expectedPrefix : Option (List Char))
    (expectedLength : Nat) : Bool :=
  if address.isEmpty then false
  else if (match expectedPrefix with
    | some p => !jsStartsWith address p
    | none => false) then false
  else if address.length < 26 || 35 < address.length then false
  else
    match decodeBase58Check sha256 address with
    | none => false
    | some decoded =>
      if decoded.length ≠ expectedLength then false
      else if decoded.headD 0 ≠ bytesVersion then false
      else true

/-! ### Bech32 / Bech32m codec (spec §4.3, BIP-173/BIP-350, `@scure/base`) -/

def bech32Charset : List Char :=
  ['q', 'p', 'z', 'r', 'y', '9', 'x', '8', 'g', 'f', '2', 't', 'v', 'd', 'w', '0',
   's', '3', 'j', 'n', '5', '4', 'k', 'h', 'c', 'e', '6', 'm', 'u', 'a', '7', 'l']

def bech32Char (d : Nat) : Char := bech32Charset.getD d ' '

def bech32CharVal (c : Char) : Option Nat := bech32Charset.findIdx? (fun x => x = c)

def bech32Vals : List Char → Option (List Nat)
  | [] => some []
  | c :: cs =>
    match bech32CharVal c, bech32Vals cs with
    | some v, some vs => some (v :: vs)
    | _, _ => none

def BECH32_CONST : Nat := 1

def BECH32M_CONST : Nat := 0x2bc830a3

def bech32PolymodStep (chk v : Nat) : Nat :=
  let b := chk >>> 25
  let c0 := (((chk &&& 0x1ffffff) <<< 5) ^^^ v)
  let c1 := if (b >>> 0) &&& 1 = 1 then c0 ^^^ 0x3b6a57b2 else c0
  let c2 := if (b >>> 1) &&& 1 = 1 then c1 ^^^ 0x26508e6d else c1
  let c3 := if (b >>> 2) &&& 1 = 1 then c2 ^^^ 0x1ea119fa else c2
  let c4 := if (b >>> 3) &&& 1 = 1 then c3 ^^^ 0x3d4233dd else c3
  if (b >>> 4) &&& 1 = 1 then c4 ^^^ 0x2a1462b3 else c4

def bech32Polymod (values : List Nat) : Nat := values.foldl bech32PolymodStep 1

def bech32HrpExpand (hrp : List Char) : List Nat :=
  hrp.map (fun c => c.toNat >>> 5) ++ [0] ++ hrp.map (fun c => c.toNat &&& 31)

def bech32CreateChecksum (checkConst : Nat) (hrp : List Char) (data : List Nat) :
    List Nat :=
  let pm := bech32Polymod (bech32HrpExpand hrp ++ data ++ [0, 0, 0, 0, 0, 0]) ^^^ checkConst
  [(pm >>> 25) &&& 31, (pm >>> 20) &&& 31, (pm >>> 15) &&& 31,
    (pm >>> 10) &&& 31, (pm >>> 5) &&& 31, pm &&& 31]

/-- Bech32 encoding with an explicit checksum constant
(`1` = Bech32, `0x2bc830a3` = Bech32m). -/
def bech32EncodeWith (checkConst : Nat) (hrp : List Char) (words : List Nat) :
    List Char :=
  hrp ++ ['1'] ++ (words ++ bech32CreateChecksum checkConst hrp words).map bech32Char

/-- Emit as many `toBits`-sized words as the accumulator holds. -/
def emitWords (toBits : Nat) : Nat → Nat × Nat → (Nat × Nat) × List Nat
  | 0, st => (st, [])
  | fuel + 1, (acc, bits) =>
    if toBits ≤ bits then
      let w := (acc >>> (bits - toBits)) &&& ((1 <<< toBits) - 1)
      let res := emitWords toBits fuel (acc, bits - toBits)
      (res.1, w :: res.2)
    else ((acc, bits), [])

/-- Bit-group conversion (`convertRadix2`): strict mode rejects excess or
non-zero padding, pad mode emits a final padded word. -/
def convertBits (fromBits toBits : Nat) (pad : Bool) (data : List Nat) :
    Option (List Nat) :=
  let step := fun (st : (Nat × Nat) × List Nat) (v : Nat) =>
    let acc2 := (st.1.1 <<< fromBits) ||| v
    let bits2 := st.1.2 + fromBits
    let res := emitWords toBits bits2 (acc2, bits2)
    (res.1, st.2 ++ res.2)
  let fin := data.foldl step ((0, 0), [])
  if pad then
    if fin.1.2 = 0 then some fin.2
    else some (fin.2 ++ [(fin.1.1 <<< (toBits - fin.1.2)) &&& ((1 <<< toBits) - 1)])
  else if fromBits ≤ fin.1.2 then none
  else if fin.1.1 &&& ((1 <<< fin.1.2) - 1) ≠ 0 then none
  else some fin.2

def bech32ToWords (bytes : List Nat) : List Nat :=
  (convertBits 8 5 true bytes).getD []

def bech32FromWords (words : List Nat) : Option (List Nat) :=
  convertBits 5 8 false words

def jsToLowerChar (c : Char) : Char :=
  if 65 ≤ c.toNat ∧ c.toNat ≤ 90 then Char.ofNat (c.toNat + 32) else c

def jsToUpperChar (c : Char) : Char :=
  if 97 ≤ c.toNat ∧ c.toNat ≤ 122 then Char.ofNat (c.toNat - 32) else c

def jsToLower (s : List Char) : List Char := s.map jsToLowerChar

def jsToUpper (s : List Char) : List Char := s.map jsToUpperChar

def lastIndexOfChar (c : Char) (s : List Char) : Option Nat :=
  match s.reverse.findIdx? (fun x => x = c) with
  | none => none
  | some i => some (s.length - 1 - i)

/-- Bech32 decoding with an explicit checksum constant: case check, split at
the last `1`, charset mapping, checksum verification; returns the
human-readable part and the data words (checksum stripped). -/
def bech32DecodeWith (checkConst : Nat) (str : List Char) : Option (List Char × List Nat) :=
  if str.length < 8 ∨ 90 < str.length then none
  else if ¬(str = jsToLower str ∨ str = jsToUpper str) then none
  else
    let lowered := jsToLower str
    match lastIndexOfChar '1' lowered with
    | none => none
    | some pos =>
      if pos = 0 ∨ lowered.length < pos + 7 then none
      else
        match bech32Vals (lowered.drop (pos + 1)) with
        | none => none
        | some vals =>
          if bech32Polymod (bech32HrpExpand (lowered.take pos) ++ vals) = checkConst then
            some (lowered.take pos, vals.take (vals.length - 6))
          else none

/-! ### SegWit address codec and the Bitcoin plugin
(`src/utils/address.ts`, `src/blockchains/bitcoin.ts`) -/

def hash160 (sha256 ripemd160 : List Nat → List Nat) (data : List Nat) : List Nat :=
  ripemd160 (sha256 data)

inductive SegwitScriptType where
  | p2wpkh
  | p2wsh
deriving DecidableEq

/-- Modelled from the spec: the current three-argument
`generateAddressSegWit` of `src/utils/address.ts` is missing from this
checkout (its caller `bitcoin.ts` passes a third `p2wpkh`/`p2wsh` argument
and the unit tests exercise distinct p2wsh/taproot programs, but only an
older two-argument revision is present). Program selection and checksum
variant follow spec §4.3: P2WPKH program = `hash160(pubkey)` (20 bytes),
P2WSH program = `SHA256([0x21, pubkey, 0xac])` (32 bytes), witness v1
(Taproot) program = `SHA256(pubkey)` (32 bytes); Bech32 checksum constant
when `witnessVersion == 0`, Bech32m otherwise (BIP-350). -/
def generateAddressSegWit (sha256 ripemd160 : List Nat → List Nat)
    (keyPublic : List Nat) (hrp : List Char) (witnessVersion : Nat)
    (scriptType : SegwitScriptType) : List Char :=
  let program :=
    if witnessVersion = 1 then sha256 keyPublic
    else
      match scriptType with
      | SegwitScriptType.p2wsh => sha256 ([0x21] ++ keyPublic ++ [0xac])
      | SegwitScriptType.p2wpkh => hash160 sha256 ripemd160 keyPublic
  let words := witnessVersion :: bech32ToWords program
  if witnessVersion = 0 then bech32EncodeWith BECH32_CONST hrp words
  else bech32EncodeWith BECH32M_CONST hrp words

/-- The decode step of the SegWit validator: decode with the variant matching
the expected witness version, then defensively retry with the other variant. -/
def segwitDecode (address : List Char) (witnessVersion : Nat) :
    Option (List Char × List Nat) :=
  let firstConst := if witnessVersion = 0 then BECH32_CONST else BECH32M_CONST
  let secondConst := if witnessVersion = 0 then BECH32M_CONST else BECH32_CONST
  match bech32DecodeWith firstConst address with
  | some r => some r
  | none => bech32DecodeWith secondConst address

/-- Program-length gate of the SegWit validator (spec §4.3): 20 or 32 bytes
for witness version 0, exactly 32 for version 1. -/
def segwitProgramCheck : Option (List Nat) → Nat → Bool
  | none, _ => false
  | some program, v =>
    if v = 0 then decide (program.length = 20 ∨ program.length = 32)
    else if v = 1 then decide (program.length = 32)
    else true

/-- Witness-version check of the SegWit validator: the first data word must
equal the expected version, then the rest converts 5→8 bits into a program. -/
def segwitWordsCheck : List Nat → Nat → Bool
  | [], _ => false
  | w :: rest, v =>
    if w ≠ v then false else segwitProgramCheck (bech32FromWords rest) v

def segwitCheck : Option (List Char × List Nat) → List Char → Nat → Bool
  | none, _, _ => false
  | some (pre, words), hrp, v => if pre ≠ hrp then false else segwitWordsCheck words v

/-- Modelled from the spec: the current `validateAddressSegWit` of
`src/utils/address.ts` is missing from this checkout (the present revision
predates Bech32m support that `bitcoin.ts` and the unit tests rely on).
Per spec §4.3: decode with the variant matching the expected witness
version, retrying the other variant; reject unless the HRP matches, the
first data word equals the expected witness version, and the program length
is legal (20 or 32 bytes for v0, exactly 32 for v1). -/
def validateAddressSegWit (address : List Char) (hrp : List Char)
    (witnessVersion : Nat) : Bool :=
  segwitCheck (segwitDecode address witnessVersion) hrp witnessVersion

/-- A trivial instantiation of the external hash-collaborator interface
(32 output bytes, values 0..31); theorems generic in the hash function are
instantiated with it for concrete evaluation. -/
def constHash32 (_xs : List Nat) : List Nat := List.range 32

/-- A 20-byte instantiation of the RIPEMD-160 collaborator interface. -/
def constHash20 (_xs : List Nat) : List Nat := List.range 20

/-! ### Bitcoin plugin (`src/blockchains/bitcoin.ts`) -/

inductive Network where
  | mainnet
  | testnet
deriving DecidableEq

structure BitcoinNetworkParams where
  hrpSegWit : List Char
  prefixSegWitV0 : List Char
  prefixSegWitV1 : List Char
  bytesVersionP2PKH : Nat
  bytesVersionP2SH : Nat

def bitcoinParams : Network → BitcoinNetworkParams
  | Network.mainnet =>
    ⟨['b', 'c'], ['b', 'c', '1', 'q'], ['b', 'c', '1', 'p'], 0x00, 0x05⟩
  | Network.testnet =>
    ⟨['t', 'b'], ['t', 'b', '1', 'q'], ['t', 'b', '1', 'p'], 0x6f, 0xc4⟩

/-- `generateAddressLegacy`: Base58Check of version byte + hash160(pubkey). -/
def generateAddressLegacy (sha256 ripemd160 : List Nat → List Nat)
    (keyPublic : List Nat) (bytesVersion : Nat) : List Char :=
  encodeBase58Check sha256 (bytesVersion :: hash160 sha256 ripemd160 keyPublic)

/-- `generateAddressP2SH`: synthetic redeem script `[0x00, 0x14, hash160(pk)]`,
hashed again, versioned, Base58Check-encoded. -/
def generateAddressP2SH (sha256 ripemd160 : List Nat → List Nat)
    (keyPublic : List Nat) (bytesVersion : Nat) : List Char :=
  encodeBase58Check sha256
    (bytesVersion ::
      hash160 sha256 ripemd160 ([0x00, 0x14] ++ hash160 sha256 ripemd160 keyPublic))

def validateAddressLegacy (sha256 : List Nat → List Nat) (address : List Char)
    (bytesVersion : Nat) : Bool :=
  validateBase58Check sha256 address bytesVersion
    (if bytesVersion = 0x00 then some ['1'] else none) 21

def validateAddressP2SH (sha256 : List Nat → List Nat) (address : List Char)
    (bytesVersion : Nat) : Bool :=
  validateBase58Check sha256 address bytesVersion
    (if bytesVersion = 0x05 then some ['3'] else none) 21

def typeLegacy : List Char := ['l', 'e', 'g', 'a', 'c', 'y']
def typeP2sh : List Char := ['p', '2', 's', 'h']
def typeSegwit : List Char := ['s', 'e', 'g', 'w', 'i', 't']
def typeP2wsh : List Char := ['p', '2', 'w', 's', 'h']
def typeTaproot : List Char := ['t', 'a', 'p', 'r', 'o', 'o', 't']

/-- Bitcoin `getAddress(keyPublic, type)`. -/
def bitcoinGetAddress (sha256 ripemd160 : List Nat → List Nat) (network : Network)
    (keyPublic : List Nat) (addressType : List Char) : List Char :=
  let params := bitcoinParams network
  if addressType = typeSegwit ∨ addressType = typeP2wsh ∨ addressType = typeTaproot then
    generateAddressSegWit sha256 ripemd160 keyPublic params.hrpSegWit
      (if addressType = typeTaproot then 1 else 0)
      (if addressType = typeP2wsh then SegwitScriptType.p2wsh else SegwitScriptType.p2wpkh)
  else if addressType = typeP2sh then
    generateAddressP2SH sha256 ripemd160 keyPublic params.bytesVersionP2SH
  else generateAddressLegacy sha256 ripemd160 keyPublic params.bytesVersionP2PKH

/-- Bitcoin `validateAddress(address)`. -/
def bitcoinValidateAddress (sha256 : List Nat → List Nat) (network : Network)
    (address : List Char) : Bool :=
  let params := bitcoinParams network
  if jsStartsWith address (params.hrpSegWit ++ ['1']) then
    if jsStartsWith address params.prefixSegWitV1 then
      validateAddressSegWit address params.hrpSegWit 1
    else validateAddressSegWit address params.hrpSegWit 0
  else if network = Network.mainnet ∧ jsStartsWith address ['3'] then
    validateAddressP2SH sha256 address params.bytesVersionP2SH
  else if network = Network.testnet ∧ jsStartsWith address ['2'] then
    validateAddressP2SH sha256 address params.bytesVersionP2SH
  else if network = Network.mainnet ∧ jsStartsWith address ['1'] then
    validateAddressLegacy sha256 address params.bytesVersionP2PKH
  else if network = Network.testnet ∧
      (jsStartsWith address ['m'] ∨ jsStartsWith address ['n']) then
    validateAddressLegacy sha256 address params.bytesVersionP2PKH
  else false

/-! ### EVM address codec (`src/utils/evm.ts`) -/

def hexDigitChar (d : Nat) : Char :=
  if d < 10 then Char.ofNat (48 + d) else Char.ofNat (87 + d)

/-- `bytesToHex`: two lowercase hex digits per byte. -/
def bytesToHex (bs : List Nat) : List Char :=
  (bs.map (fun b => [hexDigitChar (b / 16), hexDigitChar (b % 16)])).flatten

/-- `parseInt(hashChar, 16)` on a single lowercase hex digit. -/
def hexCharVal (c : Char) : Nat :=
  if 97 ≤ c.toNat then c.toNat - 87 else c.toNat - 48

def isHexDigitChar (c : Char) : Bool :=
  (48 ≤ c.toNat && c.toNat ≤ 57) || (97 ≤ c.toNat && c.toNat ≤ 102) ||
    (65 ≤ c.toNat && c.toNat ≤ 70)

/-- `toChecksumAddress` (EIP-55): Keccak-256 of the lowercase address ASCII,
then uppercase the i-th character iff the i-th hex digit of the hash is ≥ 8.
(The source throws if the hash runs out of digits; with the real 32-byte
Keccak output the 64 hash digits always cover the 40 address characters, so
the truncating `zip` agrees with the source on its entire domain.) -/
def toChecksumAddress (keccak256 : List Nat → List Nat) (address : List Char) :
    List Char :=
  let lowercaseAddress := jsToLower address
  let addressHash := bytesToHex (keccak256 (lowercaseAddress.map Char.toNat))
  (lowercaseAddress.zip (addressHash.take lowercaseAddress.length)).map
    (fun p => if 8 ≤ hexCharVal p.2 then jsToUpperChar p.1 else p.1)

/-- EVM `validateAddress`: `0x` + exactly 40 hex characters; all-lowercase or
all-uppercase accepted unconditionally; mixed case must match the EIP-55
checksum. -/
def evmValidateAddress (keccak256 : List Nat → List Nat) (address : List Char) :
    Bool :=
  if ¬jsStartsWith address ['0', 'x'] then false
  else if address.length ≠ 42 then false
  else if ¬(address.drop 2).all isHexDigitChar then false
  else if address.drop 2 = jsToLower (address.drop 2) ∨
      address.drop 2 = jsToUpper (address.drop 2) then true
  else decide (toChecksumAddress keccak256 (address.drop 2) = address.drop 2)

/-- Keccak-hash a (decompressed, format-byte-stripped) public key into a
checksummed `0x` address: last 20 bytes of the hash, hex, EIP-55. -/
def evmHashToAddress (keccak256 : List Nat → List Nat)
    (publicKeyForHashing : List Nat) : List Char :=
  let keccakHash := keccak256 publicKeyForHashing
  let addressBytes := keccakHash.drop (keccakHash.length - 20)
  ['0', 'x'] ++ toChecksumAddress keccak256 (bytesToHex addressBytes)

/-- EVM `generateAddress`: 33-byte keys are decompressed via the external
curve collaborator, 65-byte keys are used directly (minus the `0x04` byte);
any other length throws (`none`). -/
def evmGenerateAddress (keccak256 decompress : List Nat → List Nat)
    (keyPublic : List Nat) : Option (List Char) :=
  if keyPublic.length = 33 then
    some (evmHashToAddress keccak256 ((decompress keyPublic).drop 1))
  else if keyPublic.length = 65 then
    some (evmHashToAddress keccak256 (keyPublic.drop 1))
  else none

/-- `createEVMBlockchain(name, {network, bip44})`: the returned plugin's
`getAddress` and `validateAddress` close over the network but never use it. -/
def evmPluginGetAddress (keccak256 decompress : List Nat → List Nat)
    (_network : Network) (keyPublic : List Nat) : Option (List Char) :=
  evmGenerateAddress keccak256 decompress keyPublic

def evmPluginValidateAddress (keccak256 : List Nat → List Nat)
    (_network : Network) (address : List Char) : Bool :=
  evmValidateAddress keccak256 address

/-- A trivial instantiation of the external secp256k1 decompression
collaborator (65 bytes). -/
def constDecompress (_xs : List Nat) : List Nat := List.replicate 65 4

/-! ### Tron plugin (`src/blockchains/tron.ts`) -/

def tronParams (network : Network) : Nat × Char :=
  match network with
  | Network.mainnet => (0x41, 'T')
  | Network.testnet => (0xa0, 'A')

/-- Tron `getAddress`: Base58Check of prefix byte + last 20 bytes of
Keccak-256(pubkey). -/
def tronGetAddress (sha256 keccak256 : List Nat → List Nat) (network : Network)
    (keyPublic : List Nat) : List Char :=
  let keccakHash := keccak256 keyPublic
  let addressBytes := keccakHash.drop (keccakHash.length - 20)
  encodeBase58Check sha256 ((tronParams network).1 :: addressBytes)

/-- Tron `validateAddress`: `validateBase58Check(address, prefixByte, prefixChar)`. -/
def tronValidateAddress (sha256 : List Nat → List Nat) (network : Network)
    (address : List Char) : Bool :=
  validateBase58Check sha256 address (tronParams network).1
    (some [(tronParams network).2]) 21

/-! ### SLIP-10 wrapper (`src/utils/slip10.ts`) -/

structure SlipHDKey where
  privateKey : List Nat
  chainCode : List Nat
deriving DecidableEq

/-- Parse a SLIP-10 derivation path `m/...` into (index, hardened) segments. -/
def parseSlipSegments (path : List Char) : Option (List (Nat × Bool)) :=
  if path.take 2 = ['m', '/'] then
    (jsSplit '/' (path.drop 2)).foldr
      (fun seg acc =>
        match acc with
        | none => none
        | some l =>
          if seg.getLast? = some apostropheChar then
            match parseIntJS seg.dropLast with
            | some (Int.ofNat n) => some ((n, true) :: l)
            | _ => none
          else
            match parseIntJS seg with
            | some (Int.ofNat n) => some ((n, false) :: l)
            | _ => none)
      (some [])
  else none

/-- Modelled from the spec: the SLIP-10 tree walk (`micro-key-producer`) is an
external collaborator; per spec §4.7/§8 an ed25519 derivation at a
non-hardened index throws unless `forceHardened` is set, in which case every
index is treated as hardened. The HMAC child-key math is abstracted as the
`child` argument. -/
def slipDerive (child : SlipHDKey → Nat → SlipHDKey) (parent : SlipHDKey)
    (segments : List (Nat × Bool)) (forceHardened : Bool) : Option SlipHDKey :=
  match segments with
  | [] => some parent
  | (idx, hardened) :: rest =>
    if ¬hardened ∧ ¬forceHardened then none
    else slipDerive child (child parent (idx + HARDENED_OFFSET)) rest forceHardened

/-- `deriveHDKey(parent, path, forceHardened)` = `parent.derive(path, forceHardened)`. -/
def deriveHDKey (child : SlipHDKey → Nat → SlipHDKey) (parent : SlipHDKey)
    (path : List Char) (forceHardened : Bool) : Option SlipHDKey :=
  match parseSlipSegments path with
  | none => none
  | some segs => slipDerive child parent segs forceHardened

/-- `deriveHDKey` called without the third argument: the source declares
`forceHardened = true` as the default. -/
def deriveHDKeyDefault (child : SlipHDKey → Nat → SlipHDKey) (parent : SlipHDKey)
    (path : List Char) : Option SlipHDKey :=
  deriveHDKey child parent path true

/-- A concrete instantiation of the abstract SLIP-10 child-derivation
collaborator, used for witnesses. -/
def childConcat (k : SlipHDKey) (index : Nat) : SlipHDKey :=
  ⟨k.privateKey ++ [index % 256], k.chainCode⟩

/-! ### Theorems: digit machinery -/

theorem digitsAux_fuel (b : Nat) (hb : 2 ≤ b) :
    ∀ m, ∀ f, m ≤ f → digitsAux b f m = digitsAux b m m := by
  intro m
  induction m using Nat.strong_induction_on with
  | _ m ih =>
    intro f hf
    match m, f with
    | 0, 0 => rfl
    | 0, f + 1 => simp [digitsAux]
    | m + 1, f + 1 =>
      have hdiv : (m + 1) / b < m + 1 := Nat.div_lt_self (Nat.succ_pos m) hb
      have hle : (m + 1) / b ≤ m := Nat.lt_succ_iff.mp hdiv
      simp only [digitsAux, if_neg (Nat.succ_ne_zero m)]
      rw [ih ((m + 1) / b) hdiv f (Nat.le_trans hle (Nat.lt_succ_iff.mp hf)),
        ← ih ((m + 1) / b) hdiv m hle]

theorem digitsBase_zero (b : Nat) : digitsBase b 0 = [] := rfl

theorem digitsBase_pos (b n : Nat) (hb : 2 ≤ b) (hn : n ≠ 0) :
    digitsBase b n = digitsBase b (n / b) ++ [n % b] := by
  obtain ⟨m, rfl⟩ : ∃ m, n = m + 1 := ⟨n - 1, (Nat.succ_pred_eq_of_pos (Nat.pos_of_ne_zero hn)).symm⟩
  have hdiv : (m + 1) / b < m + 1 := Nat.div_lt_self (Nat.succ_pos m) hb
  show digitsAux b (m + 1) (m + 1) = _
  simp only [digitsAux, if_neg (Nat.succ_ne_zero m)]
  rw [digitsAux_fuel b hb ((m + 1) / b) m (Nat.lt_succ_iff.mp hdiv)]
  rfl

/-- `foldl`-accumulator characterisation of `ofDigits`. -/
theorem ofDigits_from (b : Nat) (ds : List Nat) (a : Nat) :
    ds.foldl (fun acc d => acc * b + d) a = a * b ^ ds.length + ofDigits b ds := by
  induction ds generalizing a with
  | nil => simp [ofDigits]
  | cons d t ih =>
    simp only [List.foldl_cons, List.length_cons, ofDigits, Nat.zero_mul, Nat.zero_add]
    rw [ih (a * b + d), ih d]
    ring

theorem ofDigits_cons (b d : Nat) (t : List Nat) :
    ofDigits b (d :: t) = d * b ^ t.length + ofDigits b t := by
  show (d :: t).foldl (fun acc d => acc * b + d) 0 = _
  simp only [List.foldl_cons, Nat.zero_mul, Nat.zero_add]
  exact ofDigits_from b t d

theorem ofDigits_append (b : Nat) (xs ys : List Nat) :
    ofDigits b (xs ++ ys) = ofDigits b xs * b ^ ys.length + ofDigits b ys := by
  show (xs ++ ys).foldl (fun acc d => acc * b + d) 0 = _
  rw [List.foldl_append]
  exact ofDigits_from b ys (ofDigits b xs)

theorem ofDigits_lt (b : Nat) (ds : List Nat)
    (h : ∀ d ∈ ds, d < b) : ofDigits b ds < b ^ ds.length := by
  induction ds with
  | nil => simp [ofDigits]
  | cons d t ih =>
    rw [ofDigits_cons]
    have hd : d < b := h d (List.mem_cons_self d t)
    have ht : ofDigits b t < b ^ t.length := ih (fun x hx => h x (List.mem_cons_of_mem d hx))
    calc d * b ^ t.length + ofDigits b t
        < d * b ^ t.length + b ^ t.length := by omega
      _ = (d + 1) * b ^ t.length := by ring
      _ ≤ b * b ^ t.length := Nat.mul_le_mul_right _ hd
      _ = b ^ (d :: t).length := by rw [List.length_cons]; ring

theorem ofDigits_digitsBase (b : Nat) (hb : 2 ≤ b) (n : Nat) :
    ofDigits b (digitsBase b n) = n := by
  induction n using Nat.strong_induction_on with
  | _ n ih =>
    by_cases hn : n = 0
    · subst hn; simp [digitsBase_zero, ofDigits]
    · rw [digitsBase_pos b n hb hn, ofDigits_append]
      have hdiv : n / b < n := Nat.div_lt_self (Nat.pos_of_ne_zero hn) hb
      rw [ih (n / b) hdiv]
      simp only [ofDigits, List.foldl_cons, List.foldl_nil, List.length_singleton, pow_one,
        Nat.zero_mul, Nat.zero_add]
      rw [Nat.mul_comm]
      exact Nat.div_add_mod n b

theorem digitsBase_mem_lt (b : Nat) (hb : 2 ≤ b) (n : Nat) :
    ∀ d ∈ digitsBase b n, d < b := by
  induction n using Nat.strong_induction_on with
  | _ n ih =>
    by_cases hn : n = 0
    · subst hn; simp [digitsBase_zero]
    · rw [digitsBase_pos b n hb hn]
      intro d hd
      rcases List.mem_append.mp hd with h | h
      · exact ih (n / b) (Nat.div_lt_self (Nat.pos_of_ne_zero hn) hb) d h
      · simp only [List.mem_singleton] at h
        subst h
        exact Nat.mod_lt n (by omega)

theorem digitsBase_head_ne_zero (b : Nat) (hb : 2 ≤ b) (n : Nat) (hn : n ≠ 0) :
    ∃ h t, digitsBase b n = h :: t ∧ h ≠ 0 := by
  induction n using Nat.strong_induction_on with
  | _ n ih =>
    rw [digitsBase_pos b n hb hn]
    by_cases hq : n / b = 0
    · refine ⟨n % b, [], by simp [hq, digitsBase_zero], ?_⟩
      have := Nat.mod_add_div n b
      intro h0
      rw [h0, hq] at this
      omega
    · obtain ⟨h, t, heq, hne⟩ := ih (n / b) (Nat.div_lt_self (Nat.pos_of_ne_zero hn) hb) hq
      exact ⟨h, t ++ [n % b], by rw [heq]; rfl, hne⟩

theorem ofDigits_pos (b x : Nat) (t : List Nat) (hx : x ≠ 0) (hb : 1 ≤ b) :
    0 < ofDigits b (x :: t) := by
  rw [ofDigits_cons]
  have h1 : 0 < b ^ t.length := Nat.pow_pos hb
  have h2 : 0 < x * b ^ t.length := Nat.mul_pos (Nat.pos_of_ne_zero hx) h1
  omega

theorem digitsBase_ofDigits (b : Nat) (hb : 2 ≤ b) (ds : List Nat)
    (hlt : ∀ d ∈ ds, d < b) (hhead : ∀ h t, ds = h :: t → h ≠ 0) :
    digitsBase b (ofDigits b ds) = ds := by
  induction ds using List.reverseRecOn with
  | nil => simp [ofDigits, digitsBase_zero]
  | append_singleton xs d ih =>
    rw [ofDigits_append]
    simp only [List.length_singleton, pow_one]
    have hdlt : d < b := hlt d (by simp)
    have hofd : ofDigits b [d] = d := by simp [ofDigits]
    rw [hofd]
    cases xs with
    | nil =>
      have hd0 : d ≠ 0 := hhead d [] rfl
      simp only [ofDigits, List.foldl_nil, Nat.zero_mul, Nat.zero_add, List.nil_append]
      rw [digitsBase_pos b d hb hd0, Nat.div_eq_of_lt hdlt, Nat.mod_eq_of_lt hdlt,
        digitsBase_zero]
      rfl
    | cons x t =>
      have hx0 : x ≠ 0 := hhead x (t ++ [d]) rfl
      have hpos : 0 < ofDigits b (x :: t) := ofDigits_pos b x t hx0 (by omega)
      have hble : b ≤ ofDigits b (x :: t) * b := Nat.le_mul_of_pos_left b hpos
      have hN : ofDigits b (x :: t) * b + d ≠ 0 := by omega
      have hdivN : (ofDigits b (x :: t) * b + d) / b = ofDigits b (x :: t) := by
        rw [Nat.add_comm, Nat.add_mul_div_right _ _ (by omega : 0 < b),
          Nat.div_eq_of_lt hdlt, Nat.zero_add]
      have hmodN : (ofDigits b (x :: t) * b + d) % b = d := by
        rw [Nat.add_comm, Nat.add_mul_mod_self_right, Nat.mod_eq_of_lt hdlt]
      rw [digitsBase_pos b _ hb hN, hdivN, hmodN]
      rw [ih (fun y hy => hlt y (List.mem_append_left _ hy))
        (fun h' t' heq => hhead h' (t' ++ [d]) (by rw [heq]; rfl))]

theorem ofDigits_zero_cons (b : Nat) (t : List Nat) :
    ofDigits b (0 :: t) = ofDigits b t := by
  rw [ofDigits_cons]; simp

/-- Leading digit of the canonical representation: if `b^k ≤ n < b^(k+1)`
then the digit list has length `k+1` and leading digit `n / b^k`. -/
theorem digitsBase_length_head (b : Nat) (hb : 2 ≤ b) :
    ∀ k n, b ^ k ≤ n → n < b ^ (k + 1) →
      (digitsBase b n).length = k + 1 ∧ (digitsBase b n).head? = some (n / b ^ k) := by
  intro k
  induction k with
  | zero =>
    intro n h1 h2
    simp only [pow_zero] at h1
    simp only [Nat.zero_add, pow_one] at h2
    have hn : n ≠ 0 := by omega
    rw [digitsBase_pos b n hb hn, Nat.div_eq_of_lt h2, Nat.mod_eq_of_lt h2, digitsBase_zero]
    constructor
    · simp
    · simp
  | succ k ih =>
    intro n h1 h2
    have hbpos : 0 < b := by omega
    have hn : n ≠ 0 := by
      have : 0 < b ^ (k + 1) := Nat.pow_pos hbpos
      omega
    have hq1 : b ^ k ≤ n / b := by
      rw [Nat.le_div_iff_mul_le hbpos]
      calc b ^ k * b = b ^ (k + 1) := by rw [pow_succ]
        _ ≤ n := h1
    have hq2 : n / b < b ^ (k + 1) := by
      rw [Nat.div_lt_iff_lt_mul hbpos]
      calc n < b ^ (k + 1 + 1) := h2
        _ = b ^ (k + 1) * b := by rw [pow_succ]
    obtain ⟨hlen, hhead⟩ := ih (n / b) hq1 hq2
    rw [digitsBase_pos b n hb hn]
    constructor
    · rw [List.length_append, hlen]; rfl
    · rw [List.head?_append_of_ne_nil _ (by intro hnil; rw [hnil] at hlen; simp at hlen)]
      rw [hhead, Nat.div_div_eq_div_mul, ← pow_succ']

/-! ### Lemmas about the BIP44 engine -/

theorem mem_decString (n : Nat) (c : Char) (hc : c ∈ decString n) :
    ∃ d, d < 10 ∧ c = digitChar d := by
  by_cases hn : n = 0
  · subst hn
    have h0 : decString 0 = [digitChar 0] := rfl
    rw [h0, List.mem_singleton] at hc
    exact ⟨0, by omega, hc⟩
  · unfold decString at hc
    rw [if_neg hn] at hc
    simp only [List.mem_map] at hc
    obtain ⟨d, hd, rfl⟩ := hc
    exact ⟨d, digitsBase_mem_lt 10 (by omega) n d hd, rfl⟩

theorem decString_ne_nil (n : Nat) : decString n ≠ [] := by
  unfold decString
  by_cases hn : n = 0
  · simp [hn]
  · simp only [if_neg hn, ne_eq, List.map_eq_nil_iff]
    obtain ⟨h, t, heq, -⟩ := digitsBase_head_ne_zero 10 (by omega) n hn
    simp [heq]

theorem slash_not_mem_decString (n : Nat) : '/' ∉ decString n := by
  intro hc
  obtain ⟨d, hd, hcd⟩ := mem_decString n '/' hc
  revert hcd
  interval_cases d <;> decide

theorem apostrophe_not_mem_decString (n : Nat) : apostropheChar ∉ decString n := by
  intro hc
  obtain ⟨d, hd, hcd⟩ := mem_decString n apostropheChar hc
  revert hcd
  interval_cases d <;> decide

theorem takeWhile_isDigit_decString (n : Nat) :
    (decString n).takeWhile isDigitChar = decString n := by
  rw [List.takeWhile_eq_self_iff]
  intro c hc
  obtain ⟨d, hd, rfl⟩ := mem_decString n c hc
  interval_cases d <;> decide

theorem map_charDigitVal_decString (n : Nat) :
    (decString n).map charDigitVal = if n = 0 then [0] else digitsBase 10 n := by
  unfold decString
  by_cases hn : n = 0
  · simp [hn]; decide
  · simp only [if_neg hn, List.map_map]
    rw [List.map_congr_left (fun d hd => ?_), List.map_id]
    have hlt : d < 10 := digitsBase_mem_lt 10 (by omega) n d hd
    show charDigitVal (digitChar d) = d
    interval_cases d <;> decide

theorem parseNatPrefix_decString (n : Nat) : parseNatPrefix (decString n) = some n := by
  unfold parseNatPrefix
  rw [takeWhile_isDigit_decString]
  rw [if_neg (by simp [List.isEmpty_iff, decString_ne_nil n])]
  rw [map_charDigitVal_decString]
  by_cases hn : n = 0
  · simp [hn, ofDigits]
  · rw [if_neg hn, ofDigits_digitsBase 10 (by omega) n]

theorem decString_head (n : Nat) :
    ∃ d t, d < 10 ∧ decString n = digitChar d :: t := by
  rcases hds : decString n with _ | ⟨c, t⟩
  · exact absurd hds (decString_ne_nil n)
  · have hc : c ∈ decString n := by rw [hds]; exact List.mem_cons_self c t
    obtain ⟨d, hd, rfl⟩ := mem_decString n c hc
    exact ⟨d, t, hd, rfl⟩


theorem parseIntJS_decString (n : Nat) : parseIntJS (decString n) = some (n : Int) := by
  obtain ⟨d, t, hd, hds⟩ := decString_head n
  have h1 : decide (digitChar d = ' ') = false := by interval_cases d <;> decide
  have h2 : ¬digitChar d = '-' := by interval_cases d <;> decide
  have h3 : ¬digitChar d = '+' := by interval_cases d <;> decide
  rw [hds]
  simp only [parseIntJS, List.dropWhile_cons, h1, Bool.false_eq_true, if_false,
    if_neg h2, if_neg h3]
  rw [← hds, parseNatPrefix_decString]
  rfl

theorem jsSplit_no_sep (sep : Char) (s : List Char) (h : sep ∉ s) :
    jsSplit sep s = [s] := by
  induction s with
  | nil => rfl
  | cons c rest ih =>
    have hc : ¬c = sep := fun hcs => h (hcs ▸ List.mem_cons_self c rest)
    have hrest : sep ∉ rest := fun hm => h (List.mem_cons_of_mem c hm)
    rw [jsSplit, if_neg hc, ih hrest]
    rfl

theorem jsSplit_append (sep : Char) (s rest : List Char) (h : sep ∉ s) :
    jsSplit sep (s ++ sep :: rest) = s :: jsSplit sep rest := by
  induction s with
  | nil => simp [jsSplit]
  | cons c t ih =>
    have hc : ¬c = sep := fun hcs => h (hcs ▸ List.mem_cons_self c t)
    have ht : sep ∉ t := fun hm => h (List.mem_cons_of_mem c hm)
    show jsSplit sep (c :: (t ++ sep :: rest)) = (c :: t) :: jsSplit sep rest
    rw [jsSplit, if_neg hc, ih ht]
    rfl

theorem parseBIP44Segments_five (s0 s1 s2 s3 s4 : List Char) :
    parseBIP44Segments [s0, s1, s2, s3, s4] =
      (if jStrictNe (parseSegment s0) (BIP44_PURPOSE : Nat) then none
      else if jLt (parseSegment s0) (HARDENED_OFFSET : Nat) ||
          jLt (parseSegment s1) (HARDENED_OFFSET : Nat) ||
          jLt (parseSegment s2) (HARDENED_OFFSET : Nat) then none
      else if (jStrictNe (parseSegment s3) 0 && jStrictNe (parseSegment s3) 1) ||
          jGe (parseSegment s3) (HARDENED_OFFSET : Nat) then none
      else if jGe (parseSegment s4) (HARDENED_OFFSET : Nat) then none
      else some ⟨jSub (parseSegment s0) (HARDENED_OFFSET : Nat),
        jSub (parseSegment s1) (HARDENED_OFFSET : Nat),
        jSub (parseSegment s2) (HARDENED_OFFSET : Nat),
        parseSegment s3, parseSegment s4⟩) := rfl

theorem decString_getLast_ne_apostrophe (n : Nat) (c : Char)
    (h : (decString n).getLast? = some c) : c ≠ apostropheChar := by
  have hc : c ∈ decString n := List.mem_of_mem_getLast? h
  obtain ⟨d, hd, rfl⟩ := mem_decString n c hc
  interval_cases d <;> decide

theorem parseSegment_hardened (n : Nat) :
    parseSegment (decString n ++ [apostropheChar]) =
      some ((n : Int) + (HARDENED_OFFSET : Nat)) := by
  unfold parseSegment
  rw [if_pos (List.getLast?_concat _), List.dropLast_concat, parseIntJS_decString]
  rfl

theorem parseSegment_plain (n : Nat) : parseSegment (decString n) = some (n : Int) := by
  unfold parseSegment
  rw [if_neg ?hne]
  · exact parseIntJS_decString n
  case hne =>
    intro hlast
    exact decString_getLast_ne_apostrophe n apostropheChar hlast rfl

theorem formatIndex_hardened (n : Nat) :
    formatIndex (HARDENED_OFFSET + n) = decString n ++ [apostropheChar] := by
  unfold formatIndex
  rw [if_pos (by simp [isHardenedIndex]), Nat.add_sub_cancel_left]

/-- C4 path shape: hardened purpose/coin/account, plain change/index. -/
theorem getBIP44Path_shape (c a ch i : Nat) :
    getBIP44Path c a ch i =
      ['m', '/'] ++ (decString 44 ++ [apostropheChar]) ++ ['/'] ++
        (decString c ++ [apostropheChar]) ++ ['/'] ++
        (decString a ++ [apostropheChar]) ++ ['/'] ++
        decString ch ++ ['/'] ++ decString i := by
  unfold getBIP44Path
  have h44 : formatIndex BIP44_PURPOSE = decString 44 ++ [apostropheChar] :=
    formatIndex_hardened 44
  rw [h44, formatIndex_hardened c, formatIndex_hardened a]

theorem slash_not_mem_hardened_segment (n : Nat) :
    '/' ∉ decString n ++ [apostropheChar] := by
  intro hm
  rcases List.mem_append.mp hm with h | h
  · exact slash_not_mem_decString n h
  · simp only [List.mem_singleton] at h
    exact absurd h (by decide)

theorem parseBIP44Path_getBIP44Path (c a ch i : Nat)
    (hch : ch = 0 ∨ ch = 1) (hi : i < HARDENED_OFFSET) :
    parseBIP44Path (getBIP44Path c a ch i) =
      some ⟨some 44, some (c : Int), some (a : Int), some (ch : Int), some (i : Int)⟩ := by
  rw [getBIP44Path_shape]
  have hassoc : ['m', '/'] ++ (decString 44 ++ [apostropheChar]) ++ ['/'] ++
      (decString c ++ [apostropheChar]) ++ ['/'] ++
      (decString a ++ [apostropheChar]) ++ ['/'] ++
      decString ch ++ ['/'] ++ decString i =
      ['m', '/'] ++ ((decString 44 ++ [apostropheChar]) ++ '/' ::
        ((decString c ++ [apostropheChar]) ++ '/' ::
          ((decString a ++ [apostropheChar]) ++ '/' ::
            (decString ch ++ '/' :: decString i)))) := by
    simp [List.append_assoc]
  rw [hassoc]
  unfold parseBIP44Path
  have htake : List.take 2 (['m', '/'] ++ ((decString 44 ++ [apostropheChar]) ++ '/' ::
      ((decString c ++ [apostropheChar]) ++ '/' ::
        ((decString a ++ [apostropheChar]) ++ '/' ::
          (decString ch ++ '/' :: decString i))))) = ['m', '/'] :=
    List.take_left ['m', '/'] _
  have hdrop : List.drop 2 (['m', '/'] ++ ((decString 44 ++ [apostropheChar]) ++ '/' ::
      ((decString c ++ [apostropheChar]) ++ '/' ::
        ((decString a ++ [apostropheChar]) ++ '/' ::
          (decString ch ++ '/' :: decString i))))) =
      (decString 44 ++ [apostropheChar]) ++ '/' ::
        ((decString c ++ [apostropheChar]) ++ '/' ::
          ((decString a ++ [apostropheChar]) ++ '/' ::
            (decString ch ++ '/' :: decString i))) :=
    List.drop_left ['m', '/'] _
  rw [if_pos htake, hdrop]
  rw [jsSplit_append '/' _ _ (slash_not_mem_hardened_segment 44),
    jsSplit_append '/' _ _ (slash_not_mem_hardened_segment c),
    jsSplit_append '/' _ _ (slash_not_mem_hardened_segment a),
    jsSplit_append '/' _ _ (slash_not_mem_decString ch),
    jsSplit_no_sep '/' _ (slash_not_mem_decString i)]
  rw [parseBIP44Segments_five]
  rw [parseSegment_hardened 44, parseSegment_hardened c, parseSegment_hardened a,
    parseSegment_plain ch, parseSegment_plain i]
  have hH : ((HARDENED_OFFSET : Nat) : Int) = 2147483648 := rfl
  have hP : ((BIP44_PURPOSE : Nat) : Int) = 2147483692 := rfl
  rw [if_neg ?hpur]
  case hpur => simp [jStrictNe, hH, hP]
  rw [if_neg ?hhard]
  case hhard =>
    simp only [jLt, hH, Bool.or_eq_true, decide_eq_true_eq, false_or]
    push_cast
    simp only [false_or]
    omega
  rw [if_neg ?hchange]
  case hchange =>
    simp only [jStrictNe, jGe, hH, Bool.or_eq_true, Bool.and_eq_true, bne_iff_ne,
      decide_eq_true_eq]
    rcases hch with h | h <;> subst h <;> simp
  rw [if_neg ?hidx]
  case hidx =>
    have hi2 : i < 2147483648 := hi
    simp only [jGe, hH, decide_eq_true_eq]
    omega
  simp only [jSub, Option.map_some, hH, hP]
  norm_num

/-- C4: for every coinType, account and addressIndex below 2^31 and change in
{0,1}, the built path has the shape `m/44'/coinType'/account'/change/addressIndex`
(purpose, coinType, account hardened; change and addressIndex non-hardened), and
`parseBIP44Path (getBIP44Path coinType account change addressIndex)` returns
purpose 44, the same coinType, account, change and addressIndex. -/
theorem C4_bip44_path_roundtrip (c a ch i : Nat) (hc : c < HARDENED_OFFSET)
    (ha : a < HARDENED_OFFSET) (hch : ch = 0 ∨ ch = 1) (hi : i < HARDENED_OFFSET) :
    getBIP44Path c a ch i =
      ['m', '/'] ++ (decString 44 ++ [apostropheChar]) ++ ['/'] ++
        (decString c ++ [apostropheChar]) ++ ['/'] ++
        (decString a ++ [apostropheChar]) ++ ['/'] ++
        decString ch ++ ['/'] ++ decString i ∧
    parseBIP44Path (getBIP44Path c a ch i) =
      some ⟨some 44, some (c : Int), some (a : Int), some (ch : Int), some (i : Int)⟩ := by
  have hcu : c < HARDENED_OFFSET := hc
  have hau : a < HARDENED_OFFSET := ha
  exact ⟨getBIP44Path_shape c a ch i, parseBIP44Path_getBIP44Path c a ch i hch hi⟩

/-- Witness for C4 at coinType 60, account 1, change 0, addressIndex 7. -/
theorem C4_bip44_path_roundtrip_witness :
    getBIP44Path 60 1 0 7 =
      ['m', '/'] ++ (decString 44 ++ [apostropheChar]) ++ ['/'] ++
        (decString 60 ++ [apostropheChar]) ++ ['/'] ++
        (decString 1 ++ [apostropheChar]) ++ ['/'] ++
        decString 0 ++ ['/'] ++ decString 7 ∧
    parseBIP44Path (getBIP44Path 60 1 0 7) =
      some ⟨some 44, some 60, some 1, some 0, some 7⟩ :=
  C4_bip44_path_roundtrip 60 1 0 7 (by decide) (by decide) (Or.inl rfl) (by decide)

/-- C9: `parseBIP44Path` does not require segments to be numeric: on the
5-segment path `m/44'/0'/0'/0/x` (non-numeric final segment) it returns a
parsed object whose addressIndex is `NaN` (modelled `none`) instead of
rejecting with `undefined`. -/
theorem C9_parse_accepts_non_numeric_index :
    parseBIP44Path ['m', '/', '4', '4', apostropheChar, '/', '0', apostropheChar, '/',
        '0', apostropheChar, '/', '0', '/', 'x'] =
      some ⟨some 44, some 0, some 0, some 0, none⟩ := by
  decide

/-! ### Base58 round-trip lemmas -/

theorem b58CharVal_b58Char : ∀ d, d < 58 → b58CharVal (b58Char d) = some d := by
  decide

theorem b58Char_ne_one : ∀ d, d < 58 → d ≠ 0 → b58Char d ≠ '1' := by decide

theorem b58Vals_map (ds : List Nat) (h : ∀ d ∈ ds, d < 58) :
    b58Vals (ds.map b58Char) = some ds := by
  induction ds with
  | nil => rfl
  | cons d t ih =>
    show b58Vals (b58Char d :: t.map b58Char) = some (d :: t)
    unfold b58Vals
    rw [b58CharVal_b58Char d (h d (List.mem_cons_self d t)),
      ih (fun x hx => h x (List.mem_cons_of_mem d hx))]

theorem takeWhile_replicate_append (x : Char) (n : Nat) (rest : List Char)
    (h : ∀ c, rest.head? = some c → ¬c = x) :
    (List.replicate n x ++ rest).takeWhile (fun c => c = x) = List.replicate n x ∧
    (List.replicate n x ++ rest).dropWhile (fun c => c = x) = rest := by
  induction n with
  | zero =>
    simp only [List.replicate_zero, List.nil_append]
    cases rest with
    | nil => exact ⟨rfl, rfl⟩
    | cons c t =>
      have hc : ¬c = x := h c rfl
      constructor
      · rw [List.takeWhile_cons, if_neg (by simp [hc])]
      · rw [List.dropWhile_cons, if_neg (by simp [hc])]
  | succ k ih =>
    have hrep : List.replicate (k + 1) x ++ rest = x :: (List.replicate k x ++ rest) := by
      rw [List.replicate_succ]; rfl
    rw [hrep]
    constructor
    · rw [List.takeWhile_cons, if_pos (by simp), (ih).1, List.replicate_succ]
    · rw [List.dropWhile_cons, if_pos (by simp), (ih).2]

theorem ofDigits_replicate_zero_append (b : Nat) (z : Nat) (t : List Nat) :
    ofDigits b (List.replicate z 0 ++ t) = ofDigits b t := by
  induction z with
  | zero => simp
  | succ k ih =>
    rw [List.replicate_succ, List.cons_append, ofDigits_zero_cons, ih]

theorem takeWhile_zeros_replicate (bs : List Nat) :
    bs.takeWhile (fun b => b = 0) =
      List.replicate (bs.takeWhile (fun b => b = 0)).length 0 := by
  apply List.eq_replicate_of_mem
  intro y hy
  have := List.mem_takeWhile_imp hy
  simpa using this

theorem base58Decode_encode (bs : List Nat) (h : ∀ x ∈ bs, x < 256) :
    base58Decode (base58Encode bs) = some bs := by
  have hsplit : bs.takeWhile (fun b => b = 0) ++ bs.dropWhile (fun b => b = 0) = bs :=
    List.takeWhile_append_dropWhile _ _
  have hz := takeWhile_zeros_replicate bs
  set z := (bs.takeWhile (fun b => b = 0)).length with hzdef
  set rest := bs.dropWhile (fun b => b = 0) with hrest
  have hbs : bs = List.replicate z 0 ++ rest := by rw [← hsplit, ← hz]
  have hN : ofDigits 256 bs = ofDigits 256 rest := by
    rw [hbs, ofDigits_replicate_zero_append]
  have hrest_lt : ∀ x ∈ rest, x < 256 := fun x hx =>
    h x (hbs ▸ List.mem_append_right _ hx)
  have hrest_head : ∀ h' t', rest = h' :: t' → h' ≠ 0 := by
    intro h' t' heq h0
    have : (bs.dropWhile (fun b => b = 0)).head? = some h' := by
      rw [← hrest, heq]; rfl
    have hfalse := List.head?_dropWhile_not (fun b => decide (b = 0)) bs
    rw [this] at hfalse
    simp only [Option.all_some] at hfalse
    rw [h0] at hfalse
    simp at hfalse
  have hdigits : digitsBase 256 (ofDigits 256 rest) = rest :=
    digitsBase_ofDigits 256 (by omega) rest hrest_lt hrest_head
  unfold base58Encode base58Decode
  rw [← hzdef, hN]
  have hds_lt : ∀ d ∈ digitsBase 58 (ofDigits 256 rest), d < 58 :=
    digitsBase_mem_lt 58 (by omega) _
  have hmain : ∀ c, ((digitsBase 58 (ofDigits 256 rest)).map b58Char).head? = some c →
      ¬c = '1' := by
    intro c hc
    by_cases hN0 : ofDigits 256 rest = 0
    · rw [hN0, digitsBase_zero] at hc
      simp at hc
    · obtain ⟨hd, td, heq, hne⟩ := digitsBase_head_ne_zero 58 (by omega) _ hN0
      rw [heq] at hc
      simp only [List.map_cons, List.head?_cons, Option.some.injEq] at hc
      subst hc
      exact b58Char_ne_one hd (hds_lt hd (heq ▸ List.mem_cons_self hd td)) hne
  obtain ⟨htw, hdw⟩ := takeWhile_replicate_append '1' z _ hmain
  rw [htw, hdw, List.length_replicate, b58Vals_map _ hds_lt]
  show some (List.replicate z 0 ++
      digitsBase 256 (ofDigits 58 (digitsBase 58 (ofDigits 256 rest)))) = some bs
  rw [ofDigits_digitsBase 58 (by omega), hdigits, ← hbs]

/-- C6: Base58Check decode ∘ encode is the identity on byte payloads (the
leading version byte included), and decoding fails whenever the trailing 4
bytes of the Base58-decoded data differ from the first 4 bytes of
`SHA256(SHA256(payload))` over the remaining bytes. -/
theorem C6_base58check_roundtrip (sha256 : List Nat → List Nat)
    (hlen : ∀ x, (sha256 x).length = 32)
    (hbyte : ∀ x b, b ∈ sha256 x → b < 256)
    (payload : List Nat) (hp : ∀ b ∈ payload, b < 256)
    (s : List Char) (bytes : List Nat) (hdec : base58Decode s = some bytes)
    (hbad : bytes.drop (bytes.length - 4) ≠
      (sha256 (sha256 (bytes.take (bytes.length - 4)))).take 4) :
    decodeBase58Check sha256 (encodeBase58Check sha256 payload) = some payload ∧
    decodeBase58Check sha256 s = none := by
  constructor
  · unfold encodeBase58Check decodeBase58Check
    have hall : ∀ x ∈ payload ++ (sha256 (sha256 payload)).take 4, x < 256 := by
      intro x hx
      rcases List.mem_append.mp hx with hx | hx
      · exact hp x hx
      · exact hbyte _ x (List.mem_of_mem_take hx)
    rw [base58Decode_encode _ hall]
    have hchklen : ((sha256 (sha256 payload)).take 4).length = 4 := by
      rw [List.length_take, hlen]
      rfl
    have hlentot : (payload ++ (sha256 (sha256 payload)).take 4).length - 4 =
        payload.length := by
      rw [List.length_append, hchklen]
      omega
    show (if (payload ++ (sha256 (sha256 payload)).take 4).drop
          ((payload ++ (sha256 (sha256 payload)).take 4).length - 4) =
        (sha256 (sha256 ((payload ++ (sha256 (sha256 payload)).take 4).take
          ((payload ++ (sha256 (sha256 payload)).take 4).length - 4)))).take 4 then
        some ((payload ++ (sha256 (sha256 payload)).take 4).take
          ((payload ++ (sha256 (sha256 payload)).take 4).length - 4))
      else none) = some payload
    rw [hlentot, List.take_left payload _, List.drop_left payload _, if_pos rfl]
  · unfold decodeBase58Check
    rw [hdec]
    show (if bytes.drop (bytes.length - 4) =
        (sha256 (sha256 (bytes.take (bytes.length - 4)))).take 4 then
        some (bytes.take (bytes.length - 4)) else none) = none
    rw [if_neg hbad]

/-- Witness for C6: payload `[0x41, 1, 2]` round-trips under the trivial
hash instantiation, and the one-character string `2` (which Base58-decodes
to `[1]` with a necessarily wrong checksum) fails to decode. -/
theorem C6_base58check_roundtrip_witness :
    decodeBase58Check constHash32 (encodeBase58Check constHash32 [65, 1, 2]) =
      some [65, 1, 2] ∧
    decodeBase58Check constHash32 ['2'] = none :=
  C6_base58check_roundtrip constHash32 (fun _ => rfl)
    (fun _ b hb => by
      have hlt : b < 32 := List.mem_range.mp (by simpa [constHash32] using hb)
      omega)
    [65, 1, 2] (by decide) ['2'] [1] (by decide) (by decide)

/-- C1: for every SegWit address produced by the Bitcoin plugin's
`getAddress`, the codec selects the checksum variant by witness version:
`segwit` and `p2wsh` (witness version 0) are encoded with the Bech32
constant, `taproot` (witness version 1) with the Bech32m constant. -/
theorem C1_segwit_checksum_variant (sha256 ripemd160 : List Nat → List Nat)
    (network : Network) (keyPublic : List Nat) :
    bitcoinGetAddress sha256 ripemd160 network keyPublic typeSegwit =
      bech32EncodeWith BECH32_CONST (bitcoinParams network).hrpSegWit
        (0 :: bech32ToWords (hash160 sha256 ripemd160 keyPublic)) ∧
    bitcoinGetAddress sha256 ripemd160 network keyPublic typeP2wsh =
      bech32EncodeWith BECH32_CONST (bitcoinParams network).hrpSegWit
        (0 :: bech32ToWords (sha256 ([0x21] ++ keyPublic ++ [0xac]))) ∧
    bitcoinGetAddress sha256 ripemd160 network keyPublic typeTaproot =
      bech32EncodeWith BECH32M_CONST (bitcoinParams network).hrpSegWit
        (1 :: bech32ToWords (sha256 keyPublic)) :=
  ⟨rfl, rfl, rfl⟩

/-- C2: `validateAddressSegWit` returns true only if the decoded program
length is legal for the expected witness version (20 or 32 bytes for
version 0, exactly 32 bytes for version 1); an illegal decoded length
forces a false result. -/
theorem C2_segwit_program_length_gating (address hrp : List Char) (v : Nat)
    (hv : v = 0 ∨ v = 1) :
    (validateAddressSegWit address hrp v = true →
      ∃ pre w rest program,
        segwitDecode address v = some (pre, w :: rest) ∧
        bech32FromWords rest = some program ∧
        ((v = 0 ∧ (program.length = 20 ∨ program.length = 32)) ∨
         (v = 1 ∧ program.length = 32))) ∧
    (∀ pre w rest program,
      segwitDecode address v = some (pre, w :: rest) →
      bech32FromWords rest = some program →
      ((v = 0 ∧ program.length ≠ 20 ∧ program.length ≠ 32) ∨
       (v = 1 ∧ program.length ≠ 32)) →
      validateAddressSegWit address hrp v = false) := by
  constructor
  · intro hval
    unfold validateAddressSegWit at hval
    rcases hdec : segwitDecode address v with _ | ⟨pre, words⟩
    · rw [hdec] at hval
      simp [segwitCheck] at hval
    · rw [hdec] at hval
      rw [segwitCheck] at hval
      by_cases hpre : pre ≠ hrp
      · rw [if_pos hpre] at hval
        simp at hval
      · rw [if_neg hpre] at hval
        rcases words with _ | ⟨w, rest⟩
        · rw [segwitWordsCheck] at hval
          simp at hval
        · rw [segwitWordsCheck] at hval
          by_cases hw : w ≠ v
          · rw [if_pos hw] at hval
            simp at hval
          · rw [if_neg hw] at hval
            rcases hprog : bech32FromWords rest with _ | program
            · rw [hprog] at hval
              rw [segwitProgramCheck] at hval
              simp at hval
            · rw [hprog] at hval
              rw [segwitProgramCheck] at hval
              refine ⟨pre, w, rest, program, rfl, hprog, ?_⟩
              rcases hv with h0 | h1
              · subst h0
                rw [if_pos rfl] at hval
                exact Or.inl ⟨rfl, of_decide_eq_true hval⟩
              · subst h1
                rw [if_neg (by omega), if_pos rfl] at hval
                exact Or.inr ⟨rfl, of_decide_eq_true hval⟩
  · intro pre w rest program hdec hprog hbad
    unfold validateAddressSegWit
    rw [hdec, segwitCheck]
    by_cases hpre : pre ≠ hrp
    · rw [if_pos hpre]
    · rw [if_neg hpre, segwitWordsCheck]
      by_cases hw : w ≠ v
      · rw [if_pos hw]
      · rw [if_neg hw, hprog, segwitProgramCheck]
        rcases hbad with ⟨h0, h20, h32⟩ | ⟨h1, h32⟩
        · subst h0
          rw [if_pos rfl]
          simp [h20, h32]
        · subst h1
          rw [if_neg (by omega), if_pos rfl]
          simp [h32]

/-- Witness for C2 at a concretely encoded 20-byte version-0 program. -/
theorem C2_segwit_program_length_gating_witness :
    (validateAddressSegWit
        (bech32EncodeWith BECH32_CONST ['b', 'c'] (0 :: bech32ToWords (List.replicate 20 0)))
        ['b', 'c'] 0 = true →
      ∃ pre w rest program,
        segwitDecode
            (bech32EncodeWith BECH32_CONST ['b', 'c']
              (0 :: bech32ToWords (List.replicate 20 0))) 0 = some (pre, w :: rest) ∧
        bech32FromWords rest = some program ∧
        ((0 = 0 ∧ (program.length = 20 ∨ program.length = 32)) ∨
         (0 = 1 ∧ program.length = 32))) ∧
    (∀ pre w rest program,
      segwitDecode
          (bech32EncodeWith BECH32_CONST ['b', 'c']
            (0 :: bech32ToWords (List.replicate 20 0))) 0 = some (pre, w :: rest) →
      bech32FromWords rest = some program →
      ((0 = 0 ∧ program.length ≠ 20 ∧ program.length ≠ 32) ∨
       (0 = 1 ∧ program.length ≠ 32)) →
      validateAddressSegWit
        (bech32EncodeWith BECH32_CONST ['b', 'c'] (0 :: bech32ToWords (List.replicate 20 0)))
        ['b', 'c'] 0 = false) :=
  C2_segwit_program_length_gating
    (bech32EncodeWith BECH32_CONST ['b', 'c'] (0 :: bech32ToWords (List.replicate 20 0)))
    ['b', 'c'] 0 (Or.inl rfl)

/-- C7: with type `p2wsh` the Bitcoin plugin encodes the 32-byte program
`SHA256([0x21, pubkey, 0xac])`, with type `taproot` the 32-byte program
`SHA256(pubkey)`; both differ from the 20-byte `hash160(pubkey)` program
encoded for type `segwit`. -/
theorem C7_p2wsh_taproot_programs (sha256 ripemd160 : List Nat → List Nat)
    (hsha : ∀ x, (sha256 x).length = 32) (hrip : ∀ x, (ripemd160 x).length = 20)
    (network : Network) (keyPublic : List Nat) (hpk : keyPublic.length = 33) :
    bitcoinGetAddress sha256 ripemd160 network keyPublic typeP2wsh =
      bech32EncodeWith BECH32_CONST (bitcoinParams network).hrpSegWit
        (0 :: bech32ToWords (sha256 ([0x21] ++ keyPublic ++ [0xac]))) ∧
    bitcoinGetAddress sha256 ripemd160 network keyPublic typeTaproot =
      bech32EncodeWith BECH32M_CONST (bitcoinParams network).hrpSegWit
        (1 :: bech32ToWords (sha256 keyPublic)) ∧
    sha256 ([0x21] ++ keyPublic ++ [0xac]) ≠ hash160 sha256 ripemd160 keyPublic ∧
    sha256 keyPublic ≠ hash160 sha256 ripemd160 keyPublic := by
  have hlen : (hash160 sha256 ripemd160 keyPublic).length = 20 := hrip _
  have hne : ∀ x, sha256 x ≠ hash160 sha256 ripemd160 keyPublic := by
    intro x heq
    have := congrArg List.length heq
    rw [hsha, hlen] at this
    omega
  have hk : keyPublic.length = 33 := hpk
  exact ⟨rfl, rfl, hne _, hne _⟩

/-- Witness for C7 under trivial hash instantiations and a 33-byte key. -/
theorem C7_p2wsh_taproot_programs_witness :
    bitcoinGetAddress constHash32 constHash20 Network.mainnet (List.replicate 33 2)
        typeP2wsh =
      bech32EncodeWith BECH32_CONST (bitcoinParams Network.mainnet).hrpSegWit
        (0 :: bech32ToWords (constHash32 ([0x21] ++ List.replicate 33 2 ++ [0xac]))) ∧
    bitcoinGetAddress constHash32 constHash20 Network.mainnet (List.replicate 33 2)
        typeTaproot =
      bech32EncodeWith BECH32M_CONST (bitcoinParams Network.mainnet).hrpSegWit
        (1 :: bech32ToWords (constHash32 (List.replicate 33 2))) ∧
    constHash32 ([0x21] ++ List.replicate 33 2 ++ [0xac]) ≠
      hash160 constHash32 constHash20 (List.replicate 33 2) ∧
    constHash32 (List.replicate 33 2) ≠
      hash160 constHash32 constHash20 (List.replicate 33 2) :=
  C7_p2wsh_taproot_programs constHash32 constHash20 (fun _ => rfl) (fun _ => rfl)
    Network.mainnet (List.replicate 33 2) (by decide)

/-- C8 counterexample: the claim says calling `deriveHDKey` without the
`forceHardened` argument on a path with a non-hardened segment fails; but the
source declares `forceHardened = true` as the default, so the call succeeds
(here on path `m/0` with a concrete child-derivation collaborator). -/
theorem C8_default_call_succeeds :
    deriveHDKeyDefault childConcat ⟨[1], [2]⟩ ['m', '/', '0'] = some ⟨[1, 0], [2]⟩ := by
  decide

/-- C8 (amended): for a SLIP-10 path containing a non-hardened segment,
`deriveHDKey` fails only when `forceHardened = false` is passed explicitly;
with `forceHardened = true` — which is also the declared default, so a call
without the argument behaves identically — it succeeds and returns the same
child key on every call. -/
theorem C8_slip10_force_hardened (child : SlipHDKey → Nat → SlipHDKey)
    (parent : SlipHDKey) (path : List Char) (segs : List (Nat × Bool))
    (hparse : parseSlipSegments path = some segs)
    (hnonh : ∃ s ∈ segs, (s : Nat × Bool).2 = false) :
    deriveHDKey child parent path false = none ∧
    ∃ r, deriveHDKey child parent path true = some r ∧
      deriveHDKeyDefault child parent path = some r := by
  have hfalse : ∀ (k : SlipHDKey) (segs2 : List (Nat × Bool)),
      (∃ s ∈ segs2, (s : Nat × Bool).2 = false) →
      slipDerive child k segs2 false = none := by
    intro k segs2 hex
    induction segs2 generalizing k with
    | nil => simp at hex
    | cons s rest ih =>
      obtain ⟨idx, hardened⟩ := s
      rw [slipDerive]
      by_cases hh : hardened = true
      · rw [if_neg (by simp [hh])]
        apply ih
        rcases hex with ⟨t, ht, htf⟩
        rcases List.mem_cons.mp ht with rfl | hmem
        · exact absurd htf (by simp [hh])
        · exact ⟨t, hmem, htf⟩
      · rw [if_pos (by simp [hh])]
  have htrue : ∀ (k : SlipHDKey) (segs2 : List (Nat × Bool)),
      ∃ r, slipDerive child k segs2 true = some r := by
    intro k segs2
    induction segs2 generalizing k with
    | nil => exact ⟨k, rfl⟩
    | cons s rest ih =>
      obtain ⟨idx, hardened⟩ := s
      rw [slipDerive, if_neg (by simp)]
      exact ih _
  unfold deriveHDKeyDefault deriveHDKey
  rw [hparse]
  obtain ⟨r, hr⟩ := htrue parent segs
  exact ⟨hfalse parent segs hnonh, r, hr, hr⟩

/-- Witness for the amended C8 on path `m/0`. -/
theorem C8_slip10_force_hardened_witness :
    deriveHDKey childConcat ⟨[1], [2]⟩ ['m', '/', '0'] false = none ∧
    ∃ r, deriveHDKey childConcat ⟨[1], [2]⟩ ['m', '/', '0'] true = some r ∧
      deriveHDKeyDefault childConcat ⟨[1], [2]⟩ ['m', '/', '0'] = some r :=
  C8_slip10_force_hardened childConcat ⟨[1], [2]⟩ ['m', '/', '0'] [(0, false)]
    (by decide) ⟨(0, false), by decide, rfl⟩

theorem char_toNat_ofNat (n : Nat) (h : n < 55296) : (Char.ofNat n).toNat = n := by
  unfold Char.ofNat
  rw [dif_pos (Or.inl h)]
  rfl

theorem jsToLowerChar_eq_of_not_upper (c : Char)
    (h : ¬(65 ≤ c.toNat ∧ c.toNat ≤ 90)) : jsToLowerChar c = c := by
  unfold jsToLowerChar
  rw [if_neg h]

theorem jsToLowerChar_toNat_of_upper (c : Char) (h : 65 ≤ c.toNat ∧ c.toNat ≤ 90) :
    (jsToLowerChar c).toNat = c.toNat + 32 := by
  unfold jsToLowerChar
  rw [if_pos h, char_toNat_ofNat _ (by omega)]

theorem jsToLowerChar_idem (c : Char) :
    jsToLowerChar (jsToLowerChar c) = jsToLowerChar c := by
  by_cases h : 65 ≤ c.toNat ∧ c.toNat ≤ 90
  · have ht : (jsToLowerChar c).toNat = c.toNat + 32 := jsToLowerChar_toNat_of_upper c h
    exact jsToLowerChar_eq_of_not_upper _ (by rw [ht]; omega)
  · rw [jsToLowerChar_eq_of_not_upper c h, jsToLowerChar_eq_of_not_upper c h]

theorem jsToLower_idem (s : List Char) : jsToLower (jsToLower s) = jsToLower s := by
  unfold jsToLower
  rw [List.map_map]
  apply List.map_congr_left
  intro c _
  exact jsToLowerChar_idem c

theorem toChecksumAddress_lower (keccak256 : List Nat → List Nat) (s : List Char) :
    toChecksumAddress keccak256 (jsToLower s) = toChecksumAddress keccak256 s := by
  unfold toChecksumAddress
  rw [jsToLower_idem]

/-- C10: EVM `generateAddress` is representation-independent — on the 33-byte
compressed key it equals the result on the 65-byte uncompressed key of the
same private key (the compressed key is decompressed before hashing) — and
any key whose byte length is neither 33 nor 65 raises an error. -/
theorem C10_evm_key_representation (keccak256 decompress : List Nat → List Nat)
    (cpk upk other : List Nat) (hc : cpk.length = 33) (hu : upk.length = 65)
    (hdec : decompress cpk = upk)
    (ho33 : other.length ≠ 33) (ho65 : other.length ≠ 65) :
    evmGenerateAddress keccak256 decompress cpk =
      evmGenerateAddress keccak256 decompress upk ∧
    evmGenerateAddress keccak256 decompress other = none := by
  constructor
  · unfold evmGenerateAddress
    rw [if_pos hc, if_neg (by omega : ¬upk.length = 33), if_pos hu, hdec]
  · unfold evmGenerateAddress
    rw [if_neg ho33, if_neg ho65]

/-- Witness for C10 with the trivial decompression collaborator. -/
theorem C10_evm_key_representation_witness :
    evmGenerateAddress constHash32 constDecompress (List.replicate 33 2) =
      evmGenerateAddress constHash32 constDecompress (List.replicate 65 4) ∧
    evmGenerateAddress constHash32 constDecompress [1] = none :=
  C10_evm_key_representation constHash32 constDecompress (List.replicate 33 2)
    (List.replicate 65 4) [1] (by decide) (by decide) rfl (by decide) (by decide)

/-- C5: the EVM validator accepts `0x` + 40 hex characters when the hex part
is all-lowercase or all-uppercase; a mixed-case hex part is accepted exactly
when it equals `toChecksumAddress` of its lowercased form; any string not of
that form is rejected. -/
theorem C5_evm_eip55_validation (keccak256 : List Nat → List Nat)
    (s : List Char) (hs40 : s.length = 40)
    (hhex : ∀ c ∈ s, isHexDigitChar c = true) (t : List Char)
    (ht : ¬∃ u, t = ['0', 'x'] ++ u ∧ u.length = 40 ∧
      ∀ c ∈ u, isHexDigitChar c = true) :
    ((s = jsToLower s ∨ s = jsToUpper s) →
      evmValidateAddress keccak256 (['0', 'x'] ++ s) = true) ∧
    (¬(s = jsToLower s ∨ s = jsToUpper s) →
      (evmValidateAddress keccak256 (['0', 'x'] ++ s) = true ↔
        toChecksumAddress keccak256 (jsToLower s) = s)) ∧
    evmValidateAddress keccak256 t = false := by
  have hpre : jsStartsWith (['0', 'x'] ++ s) ['0', 'x'] = true :=
    decide_eq_true (List.prefix_append _ _)
  have hlen : (['0', 'x'] ++ s).length = 42 := by simp [hs40]
  have hdrop : (['0', 'x'] ++ s).drop 2 = s := List.drop_left ['0', 'x'] s
  have hall : ((['0', 'x'] ++ s).drop 2).all isHexDigitChar = true := by
    rw [hdrop]
    exact List.all_eq_true.mpr hhex
  refine ⟨?_, ?_, ?_⟩
  · intro hcase
    unfold evmValidateAddress
    rw [if_neg (not_not_intro hpre), if_neg (not_not_intro hlen),
      if_neg (not_not_intro hall), hdrop, if_pos hcase]
  · intro hcase
    unfold evmValidateAddress
    rw [if_neg (not_not_intro hpre), if_neg (not_not_intro hlen),
      if_neg (not_not_intro hall), hdrop, if_neg hcase,
      toChecksumAddress_lower]
    exact decide_eq_true_iff
  · by_cases h1 : jsStartsWith t ['0', 'x'] = true
    · obtain ⟨v, hv⟩ : ['0', 'x'] <+: t := of_decide_eq_true h1
      by_cases h2 : t.length = 42
      · by_cases h3 : (t.drop 2).all isHexDigitChar = true
        · exfalso
          apply ht
          refine ⟨t.drop 2, ?_, ?_, fun c hc => List.all_eq_true.mp h3 c hc⟩
          · have hd : List.drop 2 (['0', 'x'] ++ v) = v := List.drop_left ['0', 'x'] v
            rw [← hv, hd]
          · rw [List.length_drop, h2]
        · unfold evmValidateAddress
          rw [if_neg (not_not_intro h1), if_neg (not_not_intro h2), if_pos h3]
      · unfold evmValidateAddress
        rw [if_neg (not_not_intro h1), if_pos h2]
    · unfold evmValidateAddress
      rw [if_pos h1]

/-- Witness for C5: an all-lowercase 40-hex string and the non-address `z`. -/
theorem C5_evm_eip55_validation_witness :
    ((List.replicate 40 'a' = jsToLower (List.replicate 40 'a') ∨
        List.replicate 40 'a' = jsToUpper (List.replicate 40 'a')) →
      evmValidateAddress constHash32 (['0', 'x'] ++ List.replicate 40 'a') = true) ∧
    (¬(List.replicate 40 'a' = jsToLower (List.replicate 40 'a') ∨
        List.replicate 40 'a' = jsToUpper (List.replicate 40 'a')) →
      (evmValidateAddress constHash32 (['0', 'x'] ++ List.replicate 40 'a') = true ↔
        toChecksumAddress constHash32 (jsToLower (List.replicate 40 'a')) =
          List.replicate 40 'a')) ∧
    evmValidateAddress constHash32 ['z'] = false :=
  C5_evm_eip55_validation constHash32 (List.replicate 40 'a') (by decide) (by decide)
    ['z']
    (by
      rintro ⟨u, hu, h40, -⟩
      have := congrArg List.length hu
      simp [h40] at this)

/-! ### Leading-character analysis of Base58Check addresses: the version
byte of a 21-byte payload pins the first character of the address. -/

theorem encodeBase58Check_head_version (sha256 : List Nat → List Nat)
    (hlen : ∀ x, (sha256 x).length = 32) (hbyte : ∀ x b, b ∈ sha256 x → b < 256)
    (v : Nat) (body : List Nat) (hv : v ≠ 0) (hvlt : v < 256)
    (hblen : body.length = 20) (hbb : ∀ x ∈ body, x < 256) (k : Nat)
    (hk1 : 58 ^ k ≤ v * 2 ^ 192) (hk2 : (v + 1) * 2 ^ 192 ≤ 58 ^ (k + 1)) :
    ∃ d, d < 58 ∧ v * 2 ^ 192 / 58 ^ k ≤ d ∧ d ≤ (v + 1) * 2 ^ 192 / 58 ^ k ∧
      (encodeBase58Check sha256 (v :: body)).head? = some (b58Char d) := by
  have hvu : v < 256 := hvlt
  set chk := (sha256 (sha256 (v :: body))).take 4 with hchkdef
  have hchklen : chk.length = 4 := by
    rw [hchkdef, List.length_take, hlen]
    omega
  have hrest_len : (body ++ chk).length = 24 := by
    rw [List.length_append, hblen, hchklen]
  have hrb : ∀ x ∈ body ++ chk, x < 256 := by
    intro x hx
    rcases List.mem_append.mp hx with hx | hx
    · exact hbb x hx
    · exact hbyte _ x (List.mem_of_mem_take (hchkdef ▸ hx))
  have hpow : (256 : Nat) ^ 24 = 2 ^ 192 := by
    rw [show (256 : Nat) = 2 ^ 8 from rfl, ← pow_mul]
  set N := ofDigits 256 (v :: (body ++ chk)) with hN
  have hNeq : N = v * 2 ^ 192 + ofDigits 256 (body ++ chk) := by
    rw [hN, ofDigits_cons, hrest_len, hpow]
  have hR : ofDigits 256 (body ++ chk) < 2 ^ 192 := by
    have h1 := ofDigits_lt 256 (body ++ chk) hrb
    rw [hrest_len, hpow] at h1
    exact h1
  have hNlo : v * 2 ^ 192 ≤ N := by omega
  have hexp : (v + 1) * 2 ^ 192 = v * 2 ^ 192 + 2 ^ 192 := by ring
  have hNhi : N < (v + 1) * 2 ^ 192 := by omega
  obtain ⟨hlen58, hhead58⟩ := digitsBase_length_head 58 (by omega) k N
    (le_trans hk1 hNlo) (lt_of_lt_of_le hNhi hk2)
  refine ⟨N / 58 ^ k, ?_, Nat.div_le_div_right hNlo,
    Nat.div_le_div_right (Nat.le_of_lt hNhi), ?_⟩
  · have hmem : N / 58 ^ k ∈ digitsBase 58 N := by
      rcases hds : digitsBase 58 N with _ | ⟨a, tl⟩
      · rw [hds] at hhead58
        simp at hhead58
      · rw [hds] at hhead58
        simp only [List.head?_cons, Option.some.injEq] at hhead58
        rw [← hhead58]
        exact List.mem_cons_self a tl
    exact digitsBase_mem_lt 58 (by omega) N _ hmem
  · show (encodeBase58Check sha256 (v :: body)).head? = some (b58Char (N / 58 ^ k))
    unfold encodeBase58Check base58Encode
    have hdata : (v :: body) ++ (sha256 (sha256 (v :: body))).take 4 =
        v :: (body ++ chk) := by
      rw [hchkdef, List.cons_append]
    rw [hdata]
    have htw : (v :: (body ++ chk)).takeWhile (fun b => b = 0) = [] := by
      rw [List.takeWhile_cons, if_neg (by simp [hv])]
    rw [htw]
    simp only [List.length_nil, List.replicate_zero, List.nil_append]
    rw [List.head?_map, ← hN, hhead58]
    rfl

theorem encodeBase58Check_head_zero (sha256 : List Nat → List Nat) (body : List Nat) :
    (encodeBase58Check sha256 (0 :: body)).head? = some '1' := by
  unfold encodeBase58Check base58Encode
  rw [List.cons_append, List.takeWhile_cons, if_pos (by simp), List.length_cons,
    List.replicate_succ]
  rfl

theorem jsStartsWith_false_of_head (address : List Char) (c p0 : Char) (ps : List Char)
    (hhead : address.head? = some c) (hne : c ≠ p0) :
    jsStartsWith address (p0 :: ps) = false := by
  unfold jsStartsWith
  apply decide_eq_false
  rintro ⟨t, ht⟩
  rw [← ht] at hhead
  simp only [List.cons_append, List.head?_cons, Option.some.injEq] at hhead
  exact hne hhead.symm

theorem bitcoinValidate_mainnet_false_of_head (sha256 : List Nat → List Nat)
    (address : List Char) (c : Char) (hhead : address.head? = some c)
    (hb : c ≠ 'b') (h3 : c ≠ '3') (h1 : c ≠ '1') :
    bitcoinValidateAddress sha256 Network.mainnet address = false := by
  have hsw : jsStartsWith address ['b', 'c', '1'] = false :=
    jsStartsWith_false_of_head address c 'b' ['c', '1'] hhead hb
  have hsw3 : jsStartsWith address ['3'] = false :=
    jsStartsWith_false_of_head address c '3' [] hhead h3
  have hsw1 : jsStartsWith address ['1'] = false :=
    jsStartsWith_false_of_head address c '1' [] hhead h1
  simp [bitcoinValidateAddress, bitcoinParams, hsw, hsw3, hsw1]

theorem bitcoinValidate_testnet_false_of_head (sha256 : List Nat → List Nat)
    (address : List Char) (c : Char) (hhead : address.head? = some c)
    (ht : c ≠ 't') (h2 : c ≠ '2') (hm : c ≠ 'm') (hn : c ≠ 'n') :
    bitcoinValidateAddress sha256 Network.testnet address = false := by
  have hsw : jsStartsWith address ['t', 'b', '1'] = false :=
    jsStartsWith_false_of_head address c 't' ['b', '1'] hhead ht
  have hsw2 : jsStartsWith address ['2'] = false :=
    jsStartsWith_false_of_head address c '2' [] hhead h2
  have hswm : jsStartsWith address ['m'] = false :=
    jsStartsWith_false_of_head address c 'm' [] hhead hm
  have hswn : jsStartsWith address ['n'] = false :=
    jsStartsWith_false_of_head address c 'n' [] hhead hn
  simp [bitcoinValidateAddress, bitcoinParams, hsw, hsw2, hswm, hswn]

theorem validateBase58Check_false_of_prefix (sha256 : List Nat → List Nat)
    (address : List Char) (ver elen : Nat) (p0 c : Char)
    (hhead : address.head? = some c) (hne : c ≠ p0) :
    validateBase58Check sha256 address ver (some [p0]) elen = false := by
  have hsw : jsStartsWith address [p0] = false :=
    jsStartsWith_false_of_head address c p0 [] hhead hne
  have hnonempty : address.isEmpty = false := by
    rcases address with _ | ⟨a, t⟩
    · simp at hhead
    · rfl
  simp [validateBase58Check, hnonempty, hsw]

/-- C3 counterexample: the claim quantifies over every supported plugin, but
the EVM plugins ignore the network entirely — a testnet-instance address is
accepted by the mainnet instance (and vice versa), here at a concrete
65-byte public key under concrete collaborator instantiations. -/
theorem C3_evm_cross_network_accepts :
    (evmPluginGetAddress constHash32 constDecompress Network.testnet
        (4 :: List.replicate 64 7)).map
      (evmPluginValidateAddress constHash32 Network.mainnet) = some true ∧
    (evmPluginGetAddress constHash32 constDecompress Network.mainnet
        (4 :: List.replicate 64 7)).map
      (evmPluginValidateAddress constHash32 Network.testnet) = some true := by
  decide

/-- C3 (amended): network separation holds for the plugins whose address
parameters depend on the network — Bitcoin (all five address types) and
Tron reject the other network's generated addresses — but not for every
plugin: the EVM-family `getAddress`/`validateAddress` ignore the network,
so both instances produce and accept identical addresses. -/
theorem C3_network_separation (sha256 ripemd160 keccak256 : List Nat → List Nat)
    (hsl : ∀ x, (sha256 x).length = 32) (hsb : ∀ x b, b ∈ sha256 x → b < 256)
    (hrl : ∀ x, (ripemd160 x).length = 20) (hrb : ∀ x b, b ∈ ripemd160 x → b < 256)
    (hkl : ∀ x, (keccak256 x).length = 32) (hkb : ∀ x b, b ∈ keccak256 x → b < 256)
    (keyPublic : List Nat) (t : List Char)
    (htype : t = typeLegacy ∨ t = typeP2sh ∨ t = typeSegwit ∨ t = typeP2wsh ∨
      t = typeTaproot) :
    bitcoinValidateAddress sha256 Network.mainnet
      (bitcoinGetAddress sha256 ripemd160 Network.testnet keyPublic t) = false ∧
    bitcoinValidateAddress sha256 Network.testnet
      (bitcoinGetAddress sha256 ripemd160 Network.mainnet keyPublic t) = false ∧
    tronValidateAddress sha256 Network.mainnet
      (tronGetAddress sha256 keccak256 Network.testnet keyPublic) = false ∧
    tronValidateAddress sha256 Network.testnet
      (tronGetAddress sha256 keccak256 Network.mainnet keyPublic) = false ∧
    (∀ (decompress : List Nat → List Nat) (n1 n2 : Network) (key : List Nat)
        (a : List Char),
      evmPluginGetAddress keccak256 decompress n1 key =
        evmPluginGetAddress keccak256 decompress n2 key ∧
      evmPluginValidateAddress keccak256 n1 a =
        evmPluginValidateAddress keccak256 n2 a) := by
  have h160len : ∀ x, (hash160 sha256 ripemd160 x).length = 20 := fun x => hrl _
  have h160b : ∀ x b, b ∈ hash160 sha256 ripemd160 x → b < 256 :=
    fun x b hb => hrb _ b hb
  have hkey20len : ((keccak256 keyPublic).drop ((keccak256 keyPublic).length - 20)).length
      = 20 := by
    rw [List.length_drop, hkl]
  have hkey20b : ∀ b ∈ (keccak256 keyPublic).drop ((keccak256 keyPublic).length - 20),
      b < 256 := fun b hb => hkb _ b (List.mem_of_mem_drop hb)
  refine ⟨?_, ?_, ?_, ?_, fun decompress n1 n2 key a => ⟨rfl, rfl⟩⟩
  · -- mainnet instance rejects every testnet-generated bitcoin address
    rcases htype with rfl | rfl | rfl | rfl | rfl
    · obtain ⟨d, hd58, hlo, hhi, hhead⟩ := encodeBase58Check_head_version sha256 hsl hsb
        0x6f (hash160 sha256 ripemd160 keyPublic) (by omega) (by omega)
        (h160len _) (fun b hb => h160b _ b hb) 33 (by decide) (by decide)
      rw [(by decide : (0x6f * 2 ^ 192 / 58 ^ 33 : Nat) = 44)] at hlo
      rw [(by decide : ((0x6f + 1) * 2 ^ 192 / 58 ^ 33 : Nat) = 45)] at hhi
      have hd : d = 44 ∨ d = 45 := by omega
      have he : bitcoinGetAddress sha256 ripemd160 Network.testnet keyPublic typeLegacy =
          encodeBase58Check sha256 (0x6f :: hash160 sha256 ripemd160 keyPublic) := rfl
      rw [he]
      rcases hd with rfl | rfl
      · exact bitcoinValidate_mainnet_false_of_head sha256 _ _ hhead
          (by decide) (by decide) (by decide)
      · exact bitcoinValidate_mainnet_false_of_head sha256 _ _ hhead
          (by decide) (by decide) (by decide)
    · obtain ⟨d, hd58, hlo, hhi, hhead⟩ := encodeBase58Check_head_version sha256 hsl hsb
        0xc4 (hash160 sha256 ripemd160 ([0x00, 0x14] ++ hash160 sha256 ripemd160 keyPublic))
        (by omega) (by omega) (h160len _) (fun b hb => h160b _ b hb) 34
        (by decide) (by decide)
      rw [(by decide : (0xc4 * 2 ^ 192 / 58 ^ 34 : Nat) = 1)] at hlo
      rw [(by decide : ((0xc4 + 1) * 2 ^ 192 / 58 ^ 34 : Nat) = 1)] at hhi
      have hd : d = 1 := by omega
      subst hd
      have he : bitcoinGetAddress sha256 ripemd160 Network.testnet keyPublic typeP2sh =
          encodeBase58Check sha256
            (0xc4 :: hash160 sha256 ripemd160
              ([0x00, 0x14] ++ hash160 sha256 ripemd160 keyPublic)) := rfl
      rw [he]
      exact bitcoinValidate_mainnet_false_of_head sha256 _ _ hhead
        (by decide) (by decide) (by decide)
    · exact bitcoinValidate_mainnet_false_of_head sha256 _ 't' rfl
        (by decide) (by decide) (by decide)
    · exact bitcoinValidate_mainnet_false_of_head sha256 _ 't' rfl
        (by decide) (by decide) (by decide)
    · exact bitcoinValidate_mainnet_false_of_head sha256 _ 't' rfl
        (by decide) (by decide) (by decide)
  · -- testnet instance rejects every mainnet-generated bitcoin address
    rcases htype with rfl | rfl | rfl | rfl | rfl
    · have hhead := encodeBase58Check_head_zero sha256 (hash160 sha256 ripemd160 keyPublic)
      have he : bitcoinGetAddress sha256 ripemd160 Network.mainnet keyPublic typeLegacy =
          encodeBase58Check sha256 (0 :: hash160 sha256 ripemd160 keyPublic) := rfl
      rw [he]
      exact bitcoinValidate_testnet_false_of_head sha256 _ '1' hhead
        (by decide) (by decide) (by decide) (by decide)
    · obtain ⟨d, hd58, hlo, hhi, hhead⟩ := encodeBase58Check_head_version sha256 hsl hsb
        0x05 (hash160 sha256 ripemd160 ([0x00, 0x14] ++ hash160 sha256 ripemd160 keyPublic))
        (by omega) (by omega) (h160len _) (fun b hb => h160b _ b hb) 33
        (by decide) (by decide)
      rw [(by decide : (0x05 * 2 ^ 192 / 58 ^ 33 : Nat) = 2)] at hlo
      rw [(by decide : ((0x05 + 1) * 2 ^ 192 / 58 ^ 33 : Nat) = 2)] at hhi
      have hd : d = 2 := by omega
      subst hd
      have he : bitcoinGetAddress sha256 ripemd160 Network.mainnet keyPublic typeP2sh =
          encodeBase58Check sha256
            (0x05 :: hash160 sha256 ripemd160
              ([0x00, 0x14] ++ hash160 sha256 ripemd160 keyPublic)) := rfl
      rw [he]
      exact bitcoinValidate_testnet_false_of_head sha256 _ _ hhead
        (by decide) (by decide) (by decide) (by decide)
    · exact bitcoinValidate_testnet_false_of_head sha256 _ 'b' rfl
        (by decide) (by decide) (by decide) (by decide)
    · exact bitcoinValidate_testnet_false_of_head sha256 _ 'b' rfl
        (by decide) (by decide) (by decide) (by decide)
    · exact bitcoinValidate_testnet_false_of_head sha256 _ 'b' rfl
        (by decide) (by decide) (by decide) (by decide)
  · -- tron mainnet instance rejects the testnet-generated address
    obtain ⟨d, hd58, hlo, hhi, hhead⟩ := encodeBase58Check_head_version sha256 hsl hsb
      0xa0 ((keccak256 keyPublic).drop ((keccak256 keyPublic).length - 20))
      (by omega) (by omega) hkey20len hkey20b 34 (by decide) (by decide)
    rw [(by decide : (0xa0 * 2 ^ 192 / 58 ^ 34 : Nat) = 1)] at hlo
    rw [(by decide : ((0xa0 + 1) * 2 ^ 192 / 58 ^ 34 : Nat) = 1)] at hhi
    have hd : d = 1 := by omega
    subst hd
    have he : tronGetAddress sha256 keccak256 Network.testnet keyPublic =
        encodeBase58Check sha256
          (0xa0 :: (keccak256 keyPublic).drop ((keccak256 keyPublic).length - 20)) := rfl
    have he2 : tronValidateAddress sha256 Network.mainnet
        (tronGetAddress sha256 keccak256 Network.testnet keyPublic) =
        validateBase58Check sha256
          (tronGetAddress sha256 keccak256 Network.testnet keyPublic)
          0x41 (some ['T']) 21 := rfl
    rw [he2, he]
    exact validateBase58Check_false_of_prefix sha256 _ 0x41 21 'T' _ hhead (by decide)
  · -- tron testnet instance rejects the mainnet-generated address
    obtain ⟨d, hd58, hlo, hhi, hhead⟩ := encodeBase58Check_head_version sha256 hsl hsb
      0x41 ((keccak256 keyPublic).drop ((keccak256 keyPublic).length - 20))
      (by omega) (by omega) hkey20len hkey20b 33 (by decide) (by decide)
    rw [(by decide : (0x41 * 2 ^ 192 / 58 ^ 33 : Nat) = 26)] at hlo
    rw [(by decide : ((0x41 + 1) * 2 ^ 192 / 58 ^ 33 : Nat) = 26)] at hhi
    have hd : d = 26 := by omega
    subst hd
    have he : tronGetAddress sha256 keccak256 Network.mainnet keyPublic =
        encodeBase58Check sha256
          (0x41 :: (keccak256 keyPublic).drop ((keccak256 keyPublic).length - 20)) := rfl
    have he2 : tronValidateAddress sha256 Network.testnet
        (tronGetAddress sha256 keccak256 Network.mainnet keyPublic) =
        validateBase58Check sha256
          (tronGetAddress sha256 keccak256 Network.mainnet keyPublic)
          0xa0 (some ['A']) 21 := rfl
    rw [he2, he]
    exact validateBase58Check_false_of_prefix sha256 _ 0xa0 21 'A' _ hhead (by decide)

/-- Witness for the amended C3 under trivial collaborator instantiations,
a 33-byte public key and the `legacy` address type. -/
theorem C3_network_separation_witness :
    bitcoinValidateAddress constHash32 Network.mainnet
      (bitcoinGetAddress constHash32 constHash20 Network.testnet
        (List.replicate 33 2) typeLegacy) = false ∧
    bitcoinValidateAddress constHash32 Network.testnet
      (bitcoinGetAddress constHash32 constHash20 Network.mainnet
        (List.replicate 33 2) typeLegacy) = false ∧
    tronValidateAddress constHash32 Network.mainnet
      (tronGetAddress constHash32 constHash32 Network.testnet
        (List.replicate 33 2)) = false ∧
    tronValidateAddress constHash32 Network.testnet
      (tronGetAddress constHash32 constHash32 Network.mainnet
        (List.replicate 33 2)) = false ∧
    (∀ (decompress : List Nat → List Nat) (n1 n2 : Network) (key : List Nat)
        (a : List Char),
      evmPluginGetAddress constHash32 decompress n1 key =
        evmPluginGetAddress constHash32 decompress n2 key ∧
      evmPluginValidateAddress constHash32 n1 a =
        evmPluginValidateAddress constHash32 n2 a) :=
  C3_network_separation constHash32 constHash20 constHash32
    (fun _ => rfl)
    (fun _ b hb => by
      have := List.mem_range.mp (by simpa [constHash32] using hb)
      omega)
    (fun _ => rfl)
    (fun _ b hb => by
      have := List.mem_range.mp (by simpa [constHash20] using hb)
      omega)
    (fun _ => rfl)
    (fun _ b hb => by
      have := List.mem_range.mp (by simpa [constHash32] using hb)
      omega)
    (List.replicate 33 2) typeLegacy (Or.inl rfl)

end Ubichain
